import Mathlib

/-!
Verification development for `tools.cpp` (rowhammer-tester)

Shallow embedding of the row address translator, of the SoftMC register allocator
and of the delay and placement scheduler, followed by the theorems settled about them.

Conventions of the embedding:
* `uint` / `uint32_t` values are natural numbers below `2 ^ 32`; the bitwise
  complement `~x` of a 32-bit value is `UINT32_MAX - x % 2 ^ 32`.
* a function that can terminate the process (`exit(1)`) returns `Option`.
* a method of `SoftMCRegAllocator` returns its outcome together with the state
  of the object after the call.
* a `Program&` argument is passed in and returned; `int` values are integers, reduced
  to 32 bits where a subtraction is not guarded.
-/

namespace Tools

/-! ## Row address translation -/

/-- The largest value of a `uint32_t`. -/
def UINT32_MAX : Nat := 0xFFFFFFFF

/-- Modelled from the spec: the enumeration `LogPhysRowIDScheme`, declared in `tools.h`;
the two enumerators named by `tools.cpp` are `SEQUENTIAL` and `SAMSUNG`, and
`UNIMPLEMENTED` stands for any other value, which the `switch` statements send
to their `default:` branch. -/
inductive LogPhysRowIDScheme where
  | SEQUENTIAL
  | SAMSUNG
  | UNIMPLEMENTED
  deriving DecidableEq, Repr

/-- The global `logical_physical_conversion_scheme` as initialised in `tools.cpp`. -/
def logical_physical_conversion_scheme : LogPhysRowIDScheme := LogPhysRowIDScheme.SAMSUNG

/-- The C operator `~` on a 32-bit unsigned value. -/
def bnot32 (x : Nat) : Nat := UINT32_MAX - x % 2 ^ 32

/-- `to_physical_row_id` (tools.cpp:130-150), with the scheme read from the
global made an explicit argument.  `none` is the `exit(1)` of the default branch. -/
def to_physical_row_id (scheme : LogPhysRowIDScheme) (logical_row_id : Nat) : Option Nat :=
  match scheme with
  | LogPhysRowIDScheme.SEQUENTIAL => some logical_row_id
  | LogPhysRowIDScheme.SAMSUNG =>
    if logical_row_id &&& 0x8 ≠ 0 then
      let phys_row_id := logical_row_id &&& 0xFFFFFFF9
      let phys_row_id := phys_row_id ||| (bnot32 logical_row_id &&& 0x00000006)
      some phys_row_id
    else
      some logical_row_id
  | LogPhysRowIDScheme.UNIMPLEMENTED => none

/-- `to_logical_row_id` (tools.cpp:152-173), with the scheme read from the
global made an explicit argument.  `none` is the `exit(1)` of the default branch. -/
def to_logical_row_id (scheme : LogPhysRowIDScheme) (physical_row_id : Nat) : Option Nat :=
  match scheme with
  | LogPhysRowIDScheme.SEQUENTIAL => some physical_row_id
  | LogPhysRowIDScheme.SAMSUNG =>
    if physical_row_id &&& 0x8 ≠ 0 then
      let log_row_id := physical_row_id &&& 0xFFFFFFF9
      let log_row_id := log_row_id ||| (bnot32 physical_row_id &&& 0x00000006)
      some log_row_id
    else
      some physical_row_id
  | LogPhysRowIDScheme.UNIMPLEMENTED => none

/-! ## SoftMC register allocator -/

/-- Modelled from the spec: the handle type `SMC_REG`, declared in `tools.h`; it is
taken to be an integer type wide enough to hold every register index. -/
abbrev SMC_REG := Nat

/-- The class `SoftMCRegAllocator`: its only data member is the vector `free_regs`. -/
structure SoftMCRegAllocator where
  free_regs : List SMC_REG
  deriving DecidableEq, Repr

/-- The exception type thrown by `allocate_SMC_REG`. -/
inductive OutOfSoftMCRegsException where
  | mk
  deriving DecidableEq, Repr

/-- A failed `assert`, which aborts the process. -/
inductive AssertionFailure where
  | mk
  deriving DecidableEq, Repr

/-- The constructor `SoftMCRegAllocator::SoftMCRegAllocator(num_regs, reserved_regs)` (tools.cpp:96-103):
`i` runs over `0 .. num_regs - 1` and is appended to `free_regs` when
`std::find` does not find it in `reserved_regs`. -/
def SoftMCRegAllocator.construct (num_regs : Nat) (reserved_regs : List Nat) :
    SoftMCRegAllocator :=
  ⟨(List.range num_regs).foldl
    (fun free_regs i => if i ∈ reserved_regs then free_regs else free_regs ++ [i]) []⟩

/-- The method `allocate_SMC_REG` (tools.cpp:105-112): the outcome of the call and
the allocator after it. -/
def SoftMCRegAllocator.allocate_SMC_REG (a : SoftMCRegAllocator) :
    Except OutOfSoftMCRegsException SMC_REG × SoftMCRegAllocator :=
  match a.free_regs with
  | [] => (Except.error OutOfSoftMCRegsException.mk, a)
  | ret_reg :: rest => (Except.ok ret_reg, ⟨rest⟩)

/-- The method `free_SMC_REG` (tools.cpp:114-119), with `assert` enabled: the outcome
of the call and the allocator after it (at the abort, when the assertion fails). -/
def SoftMCRegAllocator.free_SMC_REG (a : SoftMCRegAllocator) (r : SMC_REG) :
    Except AssertionFailure Unit × SoftMCRegAllocator :=
  if r ∈ a.free_regs then
    (Except.error AssertionFailure.mk, a)
  else
    (Except.ok (), ⟨a.free_regs ++ [r]⟩)

/-- The method `num_free_regs` (tools.cpp:121-123): the size of the vector converted
to `uint`. -/
def SoftMCRegAllocator.num_free_regs (a : SoftMCRegAllocator) : Nat :=
  a.free_regs.length % 2 ^ 32

/-! ### Call sequences on an allocator -/

/-- `k` successive calls of `allocate_SMC_REG`, collecting the handles returned; the
first exception ends the sequence. -/
def allocate_many : Nat → SoftMCRegAllocator →
    Except OutOfSoftMCRegsException (List SMC_REG) × SoftMCRegAllocator
  | 0, a => (Except.ok [], a)
  | k + 1, a =>
    match a.allocate_SMC_REG with
    | (Except.ok r, a') =>
      match allocate_many k a' with
      | (Except.ok rs, a2) => (Except.ok (r :: rs), a2)
      | (Except.error e, a2) => (Except.error e, a2)
    | (Except.error e, a') => (Except.error e, a')

/-- A call made by a client of the allocator. -/
inductive Call where
  | allocate
  | free (r : SMC_REG)
  deriving DecidableEq, Repr

/-- An allocator together with the ghost list of the handles currently held:
returned by `allocate_SMC_REG` and not since accepted by `free_SMC_REG`. -/
structure Session where
  alloc : SoftMCRegAllocator
  held : List SMC_REG
  deriving DecidableEq, Repr

/-- The session right after construction: nothing is held. -/
def Session.init (num_regs : Nat) (reserved_regs : List Nat) : Session :=
  ⟨SoftMCRegAllocator.construct num_regs reserved_regs, []⟩

/-- One call.  A thrown `OutOfSoftMCRegsException` is caught by the caller and the
session goes on; a failed assertion aborts the process (`none`). -/
def Session.step (s : Session) : Call → Option Session
  | Call.allocate =>
    match s.alloc.allocate_SMC_REG with
    | (Except.ok r, a) => some ⟨a, r :: s.held⟩
    | (Except.error _, a) => some ⟨a, s.held⟩
  | Call.free r =>
    match s.alloc.free_SMC_REG r with
    | (Except.ok _, a) => some ⟨a, s.held.filter (fun h => h ≠ r)⟩
    | (Except.error _, _) => none

/-- A sequence of calls, from left to right. -/
def Session.run (s : Session) : List Call → Option Session
  | [] => some s
  | c :: cs =>
    match s.step c with
    | some s' => s'.run cs
    | none => none

/-- Whether every `free_SMC_REG` call of the sequence names a handle that is held
when the call is made. -/
def Session.releasesHeldOnly (s : Session) : List Call → Bool
  | [] => true
  | c :: cs =>
    (match c with
      | Call.allocate => true
      | Call.free r => decide (r ∈ s.held)) &&
    (match s.step c with
      | some s' => s'.releasesHeldOnly cs
      | none => true)

/-- Exclusive ownership: no handle twice in the pool, none twice in the held list,
none in both. -/
def Exclusive (s : Session) : Prop :=
  s.alloc.free_regs.Nodup ∧ s.held.Nodup ∧ ∀ h, h ∈ s.held → h ∉ s.alloc.free_regs

/-- Every register index below `N` outside `R` is either held or in the free pool. -/
def Accounted (N : Nat) (R : List Nat) (s : Session) : Prop :=
  ∀ h, h < N → h ∉ R → h ∈ s.held ∨ h ∈ s.alloc.free_regs

/-- No handle of `R` is held or in the free pool. -/
def ReservedUntouched (R : List Nat) (s : Session) : Prop :=
  ∀ h, h ∈ R → h ∉ s.held ∧ h ∉ s.alloc.free_regs

/-! ## Delay and placement scheduler -/

/-- Modelled from the spec: the mini-instruction type `Mininst`, whose declaration
and constructors live in headers outside `tools.cpp`.  `SMC_NOP` is the zero-effect
filler; `op` is any other mini-instruction, named by its encoding. -/
inductive Mininst where
  | SMC_NOP
  | op (code : Nat)
  deriving DecidableEq, Repr

/-- Modelled from the spec: the bundle type `Inst`, whose declaration and constructors
live in headers outside `tools.cpp`: four mini-instruction slots packed by
`__pack_mininsts`, the full-width idle instruction `SMC_SLEEP`, or any other
full-width instruction, named by its encoding. -/
inductive Inst where
  | __pack_mininsts (m0 m1 m2 m3 : Mininst)
  | SMC_SLEEP (duration : Nat)
  | full (code : Nat)
  deriving DecidableEq, Repr

/-- The class `Program` as `tools.cpp` uses it: `add_inst` appends one bundle. -/
abbrev Program := List Inst

/-- The method `Program::add_inst`. -/
def Program.add_inst (program : Program) (i : Inst) : Program := program ++ [i]

/-- `all_nops` (tools.cpp:6-9). -/
def all_nops : Inst :=
  Inst.__pack_mininsts Mininst.SMC_NOP Mininst.SMC_NOP Mininst.SMC_NOP Mininst.SMC_NOP

/-- The loop of `sleep_delay` (tools.cpp:12-15): the program and the value of
`sleep_time` when the loop exits.  `sleep_time` is a `uint64_t`; the subtraction is
guarded by `sleep_time > UINT32_MAX` and cannot wrap. -/
def sleep_delay_loop (program : Program) (sleep_time : Nat) : Program × Nat :=
  if UINT32_MAX < sleep_time then
    sleep_delay_loop (program.add_inst (Inst.SMC_SLEEP UINT32_MAX)) (sleep_time - UINT32_MAX)
  else
    (program, sleep_time)
termination_by sleep_time
decreasing_by
  simp only [UINT32_MAX] at *
  omega

/-- The `switch` of `sleep_delay` (tools.cpp:16-29). -/
def sleep_delay_switch (program : Program) (sleep_time : Nat) : Program :=
  match sleep_time with
  | 0 => program
  | 1 => program.add_inst all_nops
  | 2 => (program.add_inst all_nops).add_inst all_nops
  | _ => program.add_inst (Inst.SMC_SLEEP sleep_time)

/-- `sleep_delay` (tools.cpp:11-30): the program after the call. -/
def sleep_delay (program : Program) (sleep_time : Nat) : Program :=
  let (program, sleep_time) := sleep_delay_loop program sleep_time
  sleep_delay_switch program sleep_time

/-- The smallest value of an `int`. -/
def INT_MIN : Int := -2147483648

/-- The largest value of an `int`. -/
def INT_MAX : Int := 2147483647

/-- A mathematical integer reduced to the 32-bit two's complement `int` range. -/
def wrap_int (x : Int) : Int := (x + 2147483648) % 4294967296 - 2147483648

/-- The loop `while (remaining >= 4) { prog.add_inst(all_nops()); remaining -= 4; }`
(tools.cpp:36-39 and 63-66, 83-86): the program and `remaining` when it exits.  The
subtraction is guarded by `remaining >= 4` and cannot overflow. -/
def nop_loop (prog : Program) (remaining : Int) : Program × Int :=
  if 4 ≤ remaining then
    nop_loop (prog.add_inst all_nops) (remaining - 4)
  else
    (prog, remaining)
termination_by remaining.toNat
decreasing_by omega

/-- The loop `while (remaining > 0) { prog.add_inst(all_nops()); remaining -= 4; }`
(tools.cpp:75-78): the program and `remaining` when it exits.  The subtraction is
guarded by `remaining > 0` and cannot overflow. -/
def nop_loop_pos (prog : Program) (remaining : Int) : Program × Int :=
  if 0 < remaining then
    nop_loop_pos (prog.add_inst all_nops) (remaining - 4)
  else
    (prog, remaining)
termination_by remaining.toNat
decreasing_by omega

/-- The `switch` of the sub-bundle `add_op_with_delay` (tools.cpp:41-61), with
`assert` enabled: the program after the operation's bundle and the new value of
`remaining`, or the failed assertion of the `default:` branch.  `after_cycles - 3`
and its siblings are `int` subtractions, reduced to 32 bits. -/
def place_switch (prog : Program) (ins : Mininst) (remaining after_cycles : Int) :
    Except AssertionFailure (Program × Int) :=
  if remaining = 0 then
    Except.ok (prog.add_inst
      (Inst.__pack_mininsts ins Mininst.SMC_NOP Mininst.SMC_NOP Mininst.SMC_NOP),
      wrap_int (after_cycles - 3))
  else if remaining = 1 then
    Except.ok (prog.add_inst
      (Inst.__pack_mininsts Mininst.SMC_NOP ins Mininst.SMC_NOP Mininst.SMC_NOP),
      wrap_int (after_cycles - 2))
  else if remaining = 2 then
    Except.ok (prog.add_inst
      (Inst.__pack_mininsts Mininst.SMC_NOP Mininst.SMC_NOP ins Mininst.SMC_NOP),
      wrap_int (after_cycles - 1))
  else if remaining = 3 then
    Except.ok (prog.add_inst
      (Inst.__pack_mininsts Mininst.SMC_NOP Mininst.SMC_NOP Mininst.SMC_NOP ins),
      after_cycles)
  else
    Except.error AssertionFailure.mk

/-- The sub-bundle `add_op_with_delay(Program&, Mininst, int, int)` (tools.cpp:32-69):
the program after the call and the value returned, or the failed assertion. -/
def add_op_with_delay_Mininst (prog : Program) (ins : Mininst)
    (before_cycles after_cycles : Int) : Except AssertionFailure (Program × Int) :=
  let remaining := if before_cycles < 0 then 0 else before_cycles
  let (prog, remaining) := nop_loop prog remaining
  match place_switch prog ins remaining after_cycles with
  | Except.ok (prog, remaining) => Except.ok (nop_loop prog remaining)
  | Except.error e => Except.error e

/-- The whole-bundle `add_op_with_delay(Program&, Inst, int, int)` (tools.cpp:71-89):
the program after the call and the value returned. -/
def add_op_with_delay_Inst (prog : Program) (ins : Inst)
    (before_cycles after_cycles : Int) : Program × Int :=
  let remaining := before_cycles
  let (prog, _) := nop_loop_pos prog remaining
  let prog := prog.add_inst ins
  let remaining := after_cycles
  nop_loop prog remaining

/-- The bundle that holds `ins` in slot `slot` (0 to 3) and NOP in the other slots. -/
def slot_bundle (ins : Mininst) (slot : Int) : Inst :=
  Inst.__pack_mininsts
    (if slot = 0 then ins else Mininst.SMC_NOP)
    (if slot = 1 then ins else Mininst.SMC_NOP)
    (if slot = 2 then ins else Mininst.SMC_NOP)
    (if slot = 3 then ins else Mininst.SMC_NOP)

/-- The cycles a bundle of a padding sequence stands for: `d` for the idle
instruction `SMC_SLEEP d`, one cycle-group for any other bundle. -/
def pad_cycles : Inst → Nat
  | Inst.SMC_SLEEP d => d
  | _ => 1

/-- The idle magnitude of a bundle: `d` for `SMC_SLEEP d`, nothing otherwise. -/
def idle_magnitude : Inst → Nat
  | Inst.SMC_SLEEP d => d
  | _ => 0

/-- Whether a bundle is a padding bundle: all-NOP, or an idle instruction of
magnitude 3 to `UINT32_MAX`. -/
def is_padding (i : Inst) : Bool :=
  match i with
  | Inst.SMC_SLEEP d => decide (3 ≤ d ∧ d ≤ UINT32_MAX)
  | _ => decide (i = all_nops)

/-- The number of slots of a bundle that hold the mini-instruction `ins`. -/
def occurrences (ins : Mininst) : Inst → Nat
  | Inst.__pack_mininsts m0 m1 m2 m3 =>
    (if m0 = ins then 1 else 0) + (if m1 = ins then 1 else 0)
      + (if m2 = ins then 1 else 0) + (if m3 = ins then 1 else 0)
  | _ => 0

/-! ### Bit-level lemmas -/

theorem and8_ne_zero_iff (x : Nat) : x &&& 0x8 ≠ 0 ↔ x.testBit 3 = true := by
  constructor
  · intro h
    by_contra hb
    apply h
    apply Nat.eq_of_testBit_eq
    intro i
    simp only [Nat.testBit_and, Nat.zero_testBit]
    by_cases hi : i = 3
    · subst hi; simp [hb]
    · have : Nat.testBit 8 i = false := by
        have h8 : (8 : Nat) = 2 ^ 3 := by norm_num
        rw [h8, Nat.testBit_two_pow]
        simp; omega
      simp [this]
  · intro hb h
    have : (x &&& 0x8).testBit 3 = true := by
      rw [Nat.testBit_and, hb]; decide
    rw [h] at this
    simp at this

theorem testBit_six (i : Nat) : Nat.testBit 6 i = (decide (i = 1) || decide (i = 2)) := by
  match i with
  | 0 => decide
  | 1 => decide
  | 2 => decide
  | k + 3 =>
    have : Nat.testBit 6 (k + 3) = false := by
      apply Nat.testBit_lt_two_pow
      calc (6 : Nat) < 2 ^ 3 := by norm_num
        _ ≤ 2 ^ (k + 3) := Nat.pow_le_pow_right (by norm_num) (by omega)
    rw [this]
    simp

theorem testBit_mask (i : Nat) :
    Nat.testBit 0xFFFFFFF9 i = (decide (i < 32) && !(Nat.testBit 6 i)) := by
  have h : (0xFFFFFFF9 : Nat) = 2 ^ 32 - (6 + 1) := by norm_num
  rw [h, Nat.testBit_two_pow_sub_succ (by norm_num)]

theorem testBit_bnot32 (x : Nat) (hx : x < 2 ^ 32) (i : Nat) :
    (bnot32 x).testBit i = (decide (i < 32) && !(x.testBit i)) := by
  have h : bnot32 x = 2 ^ 32 - (x + 1) := by
    unfold bnot32 UINT32_MAX
    rw [Nat.mod_eq_of_lt hx]
    omega
  rw [h, Nat.testBit_two_pow_sub_succ hx]

theorem testBit_high_false (x : Nat) (hx : x < 2 ^ 32) (i : Nat) (hi : 32 ≤ i) :
    x.testBit i = false := by
  apply Nat.testBit_lt_two_pow
  exact lt_of_lt_of_le hx (Nat.pow_le_pow_right (by norm_num) hi)

/-- The scrambling expression of both translation functions is `x XOR 6`. -/
theorem scramble_eq_xor (x : Nat) (hx : x < 2 ^ 32) :
    (x &&& 0xFFFFFFF9) ||| (bnot32 x &&& 0x00000006) = x ^^^ 6 := by
  apply Nat.eq_of_testBit_eq
  intro i
  simp only [Nat.testBit_or, Nat.testBit_and, Nat.testBit_xor, testBit_mask,
    testBit_bnot32 x hx]
  by_cases hi : i < 32
  · cases hb : x.testBit i <;> cases h6 : Nat.testBit 6 i <;> simp [hi]
  · have hf := testBit_high_false x hx i (by omega)
    have h6 : Nat.testBit 6 i = false := by
      rw [testBit_six]; simp; omega
    simp [hi, hf, h6]

theorem xor_six_lt (x : Nat) (hx : x < 2 ^ 32) : x ^^^ 6 < 2 ^ 32 :=
  Nat.xor_lt_two_pow hx (by norm_num)

theorem xor_six_testBit_three (x : Nat) : (x ^^^ 6).testBit 3 = x.testBit 3 := by
  rw [Nat.testBit_xor, testBit_six]; simp

theorem xor_six_xor_six (x : Nat) : (x ^^^ 6) ^^^ 6 = x := by
  rw [Nat.xor_assoc, Nat.xor_self, Nat.xor_zero]

theorem to_physical_samsung (x : Nat) (hx : x < 2 ^ 32) :
    to_physical_row_id LogPhysRowIDScheme.SAMSUNG x
      = some (if x.testBit 3 = true then x ^^^ 6 else x) := by
  unfold to_physical_row_id
  by_cases hb : x.testBit 3 = true
  · have h8 : x &&& 0x8 ≠ 0 := (and8_ne_zero_iff x).mpr hb
    simp only [h8, hb, if_true, ne_eq, not_false_eq_true, scramble_eq_xor x hx]
  · have h8 : ¬ (x &&& 0x8 ≠ 0) := fun h => hb ((and8_ne_zero_iff x).mp h)
    simp only [h8, hb, if_false]
    simp

theorem to_logical_samsung (x : Nat) (hx : x < 2 ^ 32) :
    to_logical_row_id LogPhysRowIDScheme.SAMSUNG x
      = some (if x.testBit 3 = true then x ^^^ 6 else x) := by
  unfold to_logical_row_id
  by_cases hb : x.testBit 3 = true
  · have h8 : x &&& 0x8 ≠ 0 := (and8_ne_zero_iff x).mpr hb
    simp only [h8, hb, if_true, ne_eq, not_false_eq_true, scramble_eq_xor x hx]
  · have h8 : ¬ (x &&& 0x8 ≠ 0) := fun h => hb ((and8_ne_zero_iff x).mp h)
    simp only [h8, hb, if_false]
    simp

/-- The SAMSUNG transform applied twice gives the argument back, and stays 32-bit. -/
theorem samsung_transform_twice (x : Nat) (hx : x < 2 ^ 32) :
    (if x.testBit 3 = true then x ^^^ 6 else x) < 2 ^ 32 ∧
    (if (if x.testBit 3 = true then x ^^^ 6 else x).testBit 3 = true
      then (if x.testBit 3 = true then x ^^^ 6 else x) ^^^ 6
      else (if x.testBit 3 = true then x ^^^ 6 else x)) = x := by
  by_cases hb : x.testBit 3 = true
  · simp only [hb, if_true, xor_six_testBit_three, xor_six_xor_six]
    exact ⟨xor_six_lt x hx, trivial⟩
  · have hb' : x.testBit 3 = false := by simpa using hb
    simp only [hb', Bool.false_eq_true, if_false]
    exact ⟨hx, trivial⟩

/-! ### Lemmas on the allocator -/

theorem construct_loop_eq (R : List Nat) (l acc : List Nat) :
    l.foldl (fun free_regs i => if i ∈ R then free_regs else free_regs ++ [i]) acc
      = acc ++ l.filter (fun i => decide (i ∉ R)) := by
  induction l generalizing acc with
  | nil => simp
  | cons i l ih =>
    rw [List.foldl_cons, ih]
    by_cases hi : i ∈ R
    · simp [hi]
    · simp [hi]

theorem construct_free_regs (N : Nat) (R : List Nat) :
    (SoftMCRegAllocator.construct N R).free_regs
      = (List.range N).filter (fun i => decide (i ∉ R)) := by
  unfold SoftMCRegAllocator.construct
  simp only [construct_loop_eq, List.nil_append]

theorem construct_mem (N : Nat) (R : List Nat) (i : Nat) :
    i ∈ (SoftMCRegAllocator.construct N R).free_regs ↔ i < N ∧ i ∉ R := by
  rw [construct_free_regs]
  simp [List.mem_filter, List.mem_range]

theorem construct_sorted (N : Nat) (R : List Nat) :
    (SoftMCRegAllocator.construct N R).free_regs.Pairwise (fun a b => a < b) := by
  rw [construct_free_regs]
  exact List.Pairwise.filter _ (List.pairwise_lt_range N)

theorem allocate_cons (r : SMC_REG) (rest : List SMC_REG) :
    (SoftMCRegAllocator.mk (r :: rest)).allocate_SMC_REG = (Except.ok r, ⟨rest⟩) := rfl

theorem allocate_nil :
    (SoftMCRegAllocator.mk []).allocate_SMC_REG
      = (Except.error OutOfSoftMCRegsException.mk, ⟨[]⟩) := rfl

theorem allocate_many_append (l m : List SMC_REG) :
    allocate_many l.length ⟨l ++ m⟩ = (Except.ok l, ⟨m⟩) := by
  induction l with
  | nil => rfl
  | cons r l ih =>
    simp only [List.length_cons, List.cons_append, allocate_many, allocate_cons, ih]

theorem allocate_many_all (l : List SMC_REG) :
    allocate_many l.length ⟨l⟩ = (Except.ok l, ⟨[]⟩) := by
  have h := allocate_many_append l []
  rwa [List.append_nil] at h

theorem free_present (a : SoftMCRegAllocator) (h : SMC_REG) (hm : h ∈ a.free_regs) :
    a.free_SMC_REG h = (Except.error AssertionFailure.mk, a) := by
  unfold SoftMCRegAllocator.free_SMC_REG
  simp [hm]

theorem free_absent (a : SoftMCRegAllocator) (h : SMC_REG) (hm : h ∉ a.free_regs) :
    a.free_SMC_REG h = (Except.ok (), ⟨a.free_regs ++ [h]⟩) := by
  unfold SoftMCRegAllocator.free_SMC_REG
  simp [hm]

theorem num_free_regs_mk (l : List SMC_REG) :
    (SoftMCRegAllocator.mk l).num_free_regs = l.length % 2 ^ 32 := rfl

theorem allocate_range_succ (n : Nat) :
    (SoftMCRegAllocator.mk (List.range (n + 1))).allocate_SMC_REG
      = (Except.ok 0, ⟨List.map Nat.succ (List.range n)⟩) := by
  rw [List.range_succ_eq_map, allocate_cons]

theorem num_free_regs_range (n : Nat) :
    (SoftMCRegAllocator.mk (List.range n)).num_free_regs = n % 2 ^ 32 := by
  rw [num_free_regs_mk, List.length_range]

theorem num_free_regs_after_allocate_range (n : Nat) :
    (SoftMCRegAllocator.mk (List.range (n + 1))).allocate_SMC_REG.2.num_free_regs
      = n % 2 ^ 32 := by
  rw [allocate_range_succ, num_free_regs_mk, List.length_map, List.length_range]

theorem free_range_self (n : Nat) :
    (SoftMCRegAllocator.mk (List.range n)).free_SMC_REG n
      = (Except.ok (), ⟨List.range n ++ [n]⟩) :=
  free_absent ⟨List.range n⟩ n (fun h => Nat.lt_irrefl n (List.mem_range.mp h))

theorem num_free_regs_after_free_range (n : Nat) :
    ((SoftMCRegAllocator.mk (List.range n)).free_SMC_REG n).2.num_free_regs
      = (n + 1) % 2 ^ 32 := by
  rw [free_range_self, num_free_regs_mk, List.length_append, List.length_range,
    List.length_singleton]

theorem not_mem_range_pool (n : Nat) :
    n ∉ (SoftMCRegAllocator.mk (List.range n)).free_regs :=
  fun h => Nat.lt_irrefl n (List.mem_range.mp h)

theorem length_range_pool (n : Nat) :
    (SoftMCRegAllocator.mk (List.range n)).free_regs.length = n :=
  List.length_range n

/-! ### Lemmas on call sequences -/

theorem allocate_eq_ok (a a' : SoftMCRegAllocator) (r : SMC_REG)
    (h : a.allocate_SMC_REG = (Except.ok r, a')) : a.free_regs = r :: a'.free_regs := by
  obtain ⟨l⟩ := a
  cases l with
  | nil => simp [SoftMCRegAllocator.allocate_SMC_REG] at h
  | cons x rest =>
    simp only [allocate_cons, Prod.mk.injEq, Except.ok.injEq] at h
    obtain ⟨h1, h2⟩ := h
    subst h1
    subst h2
    rfl

/-- The three ways a call can leave the session running. -/
theorem step_cases (s s' : Session) (c : Call) (h : s.step c = some s') :
    (c = Call.allocate ∧ s.alloc.free_regs = [] ∧ s' = s) ∨
    (∃ r t, c = Call.allocate ∧ s.alloc.free_regs = r :: t ∧ s' = ⟨⟨t⟩, r :: s.held⟩) ∨
    (∃ r, c = Call.free r ∧ r ∉ s.alloc.free_regs ∧
      s' = ⟨⟨s.alloc.free_regs ++ [r]⟩, s.held.filter (fun h => h ≠ r)⟩) := by
  obtain ⟨⟨l⟩, held⟩ := s
  cases c with
  | allocate =>
    cases l with
    | nil =>
      left
      simp only [Session.step, allocate_nil, Option.some.injEq] at h
      exact ⟨rfl, rfl, h.symm⟩
    | cons r t =>
      right; left
      simp only [Session.step, allocate_cons, Option.some.injEq] at h
      exact ⟨r, t, rfl, rfl, h.symm⟩
  | free r =>
    right; right
    by_cases hm : r ∈ l
    · simp [Session.step, SoftMCRegAllocator.free_SMC_REG, hm] at h
    · simp only [Session.step, SoftMCRegAllocator.free_SMC_REG, hm, if_false,
        Option.some.injEq] at h
      exact ⟨r, rfl, hm, h.symm⟩

/-- A property kept by every call is kept by every sequence of calls. -/
theorem run_preserves (P : Session → Prop)
    (hstep : ∀ s c s', P s → s.step c = some s' → P s') :
    ∀ (calls : List Call) (s s' : Session), P s → s.run calls = some s' → P s' := by
  intro calls
  induction calls with
  | nil =>
    intro s s' hP h
    simp only [Session.run, Option.some.injEq] at h
    exact h ▸ hP
  | cons c cs ih =>
    intro s s' hP h
    simp only [Session.run] at h
    cases hs : s.step c with
    | none => simp [hs] at h
    | some s1 =>
      rw [hs] at h
      exact ih s1 s' (hstep s c s1 hP hs) h

/-- The same for sequences whose releases name held handles only. -/
theorem run_preserves_heldOnly (P : Session → Prop)
    (hstep : ∀ s c s', P s → (∀ r, c = Call.free r → r ∈ s.held) →
      s.step c = some s' → P s') :
    ∀ (calls : List Call) (s s' : Session), P s → s.releasesHeldOnly calls = true →
      s.run calls = some s' → P s' := by
  intro calls
  induction calls with
  | nil =>
    intro s s' hP _ h
    simp only [Session.run, Option.some.injEq] at h
    exact h ▸ hP
  | cons c cs ih =>
    intro s s' hP hd h
    simp only [Session.run] at h
    simp only [Session.releasesHeldOnly, Bool.and_eq_true] at hd
    cases hs : s.step c with
    | none => simp [hs] at h
    | some s1 =>
      rw [hs] at h hd
      refine ih s1 s' (hstep s c s1 hP ?_ hs) hd.2 h
      intro r hc
      subst hc
      simpa using hd.1

/-- The same for sequences of `allocate_SMC_REG` calls only. -/
theorem run_preserves_allocOnly (P : Session → Prop)
    (hstep : ∀ s s', P s → s.step Call.allocate = some s' → P s') :
    ∀ (calls : List Call) (s s' : Session), P s → (∀ c ∈ calls, c = Call.allocate) →
      s.run calls = some s' → P s' := by
  intro calls
  induction calls with
  | nil =>
    intro s s' hP _ h
    simp only [Session.run, Option.some.injEq] at h
    exact h ▸ hP
  | cons c cs ih =>
    intro s s' hP hall h
    simp only [Session.run] at h
    have hc : c = Call.allocate := hall c (List.mem_cons_self _ _)
    subst hc
    cases hs : s.step Call.allocate with
    | none => simp [hs] at h
    | some s1 =>
      rw [hs] at h
      exact ih s1 s' (hstep s s1 hP hs) (fun c hc => hall c (List.mem_cons_of_mem _ hc)) h

theorem exclusive_step (s : Session) (c : Call) (s' : Session)
    (hP : Exclusive s) (h : s.step c = some s') : Exclusive s' := by
  obtain ⟨hnd, hhd, hdisj⟩ := hP
  rcases step_cases s s' c h with ⟨_, _, rfl⟩ | ⟨r, t, _, hl, rfl⟩ | ⟨r, _, hm, rfl⟩
  · exact ⟨hnd, hhd, hdisj⟩
  · rw [hl] at hnd hdisj
    have hrt : r ∉ t := (List.nodup_cons.mp hnd).1
    have hr : r ∉ s.held := fun hr => hdisj r hr (List.mem_cons_self _ _)
    refine ⟨(List.nodup_cons.mp hnd).2, List.nodup_cons.mpr ⟨hr, hhd⟩, ?_⟩
    intro h hh
    rcases List.mem_cons.mp hh with rfl | hh
    · exact hrt
    · exact fun ht => hdisj h hh (List.mem_cons_of_mem _ ht)
  · refine ⟨?_, hhd.filter _, ?_⟩
    · show (s.alloc.free_regs ++ [r]).Nodup
      rw [List.nodup_append]
      refine ⟨hnd, List.nodup_singleton r, ?_⟩
      intro x hx hx'
      rw [List.mem_singleton] at hx'
      exact hm (hx' ▸ hx)
    · intro h hh
      simp only [List.mem_filter, decide_eq_true_eq] at hh
      show h ∉ s.alloc.free_regs ++ [r]
      simp only [List.mem_append, List.mem_singleton, not_or]
      exact ⟨hdisj h hh.1, hh.2⟩

theorem exclusive_init (N : Nat) (R : List Nat) : Exclusive (Session.init N R) := by
  refine ⟨?_, List.nodup_nil, ?_⟩
  · show (SoftMCRegAllocator.construct N R).free_regs.Nodup
    exact (construct_sorted N R).imp (fun h => Nat.ne_of_lt h)
  · intro h hh
    simp [Session.init] at hh

theorem exclusive_reachable (N : Nat) (R : List Nat) (calls : List Call) (s : Session)
    (h : (Session.init N R).run calls = some s) : Exclusive s :=
  run_preserves Exclusive exclusive_step calls _ s (exclusive_init N R) h

theorem accounted_step (N : Nat) (R : List Nat) (s : Session) (c : Call) (s' : Session)
    (hP : Accounted N R s) (h : s.step c = some s') : Accounted N R s' := by
  rcases step_cases s s' c h with ⟨_, _, rfl⟩ | ⟨r, t, _, hl, rfl⟩ | ⟨r, _, _, rfl⟩
  · exact hP
  · intro x hx hxR
    rcases hP x hx hxR with hh | hf
    · exact Or.inl (List.mem_cons_of_mem _ hh)
    · rw [hl] at hf
      rcases List.mem_cons.mp hf with rfl | ht
      · exact Or.inl (List.mem_cons_self _ _)
      · exact Or.inr ht
  · intro x hx hxR
    show x ∈ s.held.filter (fun h => h ≠ r) ∨ x ∈ s.alloc.free_regs ++ [r]
    by_cases hxr : x = r
    · right
      simp [hxr]
    · rcases hP x hx hxR with hh | hf
      · left
        simp [List.mem_filter, hh, hxr]
      · right
        exact List.mem_append_left _ hf

theorem accounted_reachable (N : Nat) (R : List Nat) (calls : List Call) (s : Session)
    (h : (Session.init N R).run calls = some s) : Accounted N R s := by
  refine run_preserves (Accounted N R) (accounted_step N R) calls _ s ?_ h
  intro x hx hxR
  exact Or.inr ((construct_mem N R x).mpr ⟨hx, hxR⟩)

theorem reservedUntouched_step (R : List Nat) (s : Session) (c : Call) (s' : Session)
    (hP : ReservedUntouched R s) (hheld : ∀ r, c = Call.free r → r ∈ s.held)
    (h : s.step c = some s') : ReservedUntouched R s' := by
  rcases step_cases s s' c h with ⟨_, _, rfl⟩ | ⟨r, t, _, hl, rfl⟩ | ⟨r, hc, _, rfl⟩
  · exact hP
  · intro x hxR
    obtain ⟨h1, h2⟩ := hP x hxR
    rw [hl] at h2
    simp only [List.mem_cons, not_or] at h2 ⊢
    exact ⟨⟨h2.1, h1⟩, h2.2⟩
  · intro x hxR
    obtain ⟨h1, h2⟩ := hP x hxR
    have hr : r ∈ s.held := hheld r hc
    have hxr : x ≠ r := fun e => h1 (e ▸ hr)
    refine ⟨fun hx => h1 (List.mem_of_mem_filter hx), ?_⟩
    show x ∉ s.alloc.free_regs ++ [r]
    simp only [List.mem_append, List.mem_singleton, not_or]
    exact ⟨h2, hxr⟩

theorem reservedUntouched_reachable (N : Nat) (R : List Nat) (calls : List Call)
    (s : Session) (hd : (Session.init N R).releasesHeldOnly calls = true)
    (h : (Session.init N R).run calls = some s) : ReservedUntouched R s := by
  refine run_preserves_heldOnly (ReservedUntouched R) (reservedUntouched_step R)
    calls _ s ?_ hd h
  intro x hxR
  refine ⟨by simp [Session.init], ?_⟩
  intro hx
  exact ((construct_mem N R x).mp hx).2 hxR

theorem ascending_reachable (N : Nat) (R : List Nat) (calls : List Call) (s : Session)
    (hall : ∀ c ∈ calls, c = Call.allocate)
    (h : (Session.init N R).run calls = some s) :
    s.alloc.free_regs.Pairwise (fun a b => a < b) := by
  refine run_preserves_allocOnly (fun s => s.alloc.free_regs.Pairwise (fun a b => a < b))
    ?_ calls _ s (construct_sorted N R) hall h
  intro s s' hP hs
  rcases step_cases s s' Call.allocate hs with ⟨_, _, rfl⟩ | ⟨r, t, _, hl, rfl⟩ | ⟨r, hc, _, _⟩
  · exact hP
  · rw [hl] at hP
    exact (List.pairwise_cons.mp hP).2
  · cases hc

/-! ### Lemmas on `sleep_delay` -/

theorem sleep_delay_loop_le (p : Program) (t : Nat) (h : t ≤ UINT32_MAX) :
    sleep_delay_loop p t = (p, t) := by
  rw [sleep_delay_loop]
  simp [Nat.not_lt.mpr h]

theorem sleep_delay_loop_gt (p : Program) (t : Nat) (h : UINT32_MAX < t) :
    sleep_delay_loop p t
      = sleep_delay_loop (p ++ [Inst.SMC_SLEEP UINT32_MAX]) (t - UINT32_MAX) := by
  rw [sleep_delay_loop]
  simp [h, Program.add_inst]

/-- Closed form of the decomposition loop. -/
theorem sleep_delay_loop_closed (k : Nat) :
    ∀ (p : Program) (r : Nat), r ≤ UINT32_MAX → (1 ≤ r ∨ k = 0) →
      sleep_delay_loop p (k * UINT32_MAX + r)
        = (p ++ List.replicate k (Inst.SMC_SLEEP UINT32_MAX), r) := by
  induction k with
  | zero =>
    intro p r hr _
    simp [sleep_delay_loop_le p r hr]
  | succ k ih =>
    intro p r hr h1
    have hr1 : 1 ≤ r := by
      rcases h1 with h | h
      · exact h
      · omega
    have hgt : UINT32_MAX < (k + 1) * UINT32_MAX + r := by
      have : 0 ≤ k * UINT32_MAX := Nat.zero_le _
      rw [Nat.succ_mul]
      omega
    have hsub : (k + 1) * UINT32_MAX + r - UINT32_MAX = k * UINT32_MAX + r := by
      rw [Nat.succ_mul]
      omega
    rw [sleep_delay_loop_gt _ _ hgt, hsub, ih _ r hr (Or.inl hr1)]
    simp [List.replicate_succ]

/-- Every duration splits into whole maximal sleeps and a remainder that is zero only
for the duration zero. -/
theorem sleep_decompose (c : Nat) :
    ∃ k r, r ≤ UINT32_MAX ∧ (1 ≤ r ∨ k = 0) ∧ c = k * UINT32_MAX + r ∧
      (c = 0 → r = 0) ∧ (0 < c → 1 ≤ r) := by
  by_cases hc : c = 0
  · exact ⟨0, 0, Nat.zero_le _, Or.inr rfl, by simp [hc], fun _ => rfl, fun h => by omega⟩
  · refine ⟨(c - 1) / UINT32_MAX, (c - 1) % UINT32_MAX + 1, ?_, Or.inl (by omega), ?_,
      fun h => absurd h hc, fun _ => by omega⟩
    · have : (c - 1) % UINT32_MAX < UINT32_MAX := Nat.mod_lt _ (by decide)
      omega
    · have := Nat.div_add_mod (c - 1) UINT32_MAX
      rw [Nat.mul_comm] at this
      omega

theorem sleep_delay_switch_append (p : Program) (t : Nat) :
    sleep_delay_switch p t = p ++ sleep_delay_switch [] t := by
  match t with
  | 0 => simp [sleep_delay_switch]
  | 1 => simp [sleep_delay_switch, Program.add_inst]
  | 2 => simp [sleep_delay_switch, Program.add_inst]
  | n + 3 => simp [sleep_delay_switch, Program.add_inst]

theorem sleep_delay_switch_nil (t : Nat) :
    sleep_delay_switch [] t
      = if t = 0 then []
        else if t = 1 ∨ t = 2 then List.replicate t all_nops
        else [Inst.SMC_SLEEP t] := by
  match t with
  | 0 => simp [sleep_delay_switch]
  | 1 => simp [sleep_delay_switch, Program.add_inst]
  | 2 => simp [sleep_delay_switch, Program.add_inst, List.replicate]
  | n + 3 => simp [sleep_delay_switch, Program.add_inst]

theorem sleep_delay_def (p : Program) (c : Nat) :
    sleep_delay p c
      = sleep_delay_switch (sleep_delay_loop p c).1 (sleep_delay_loop p c).2 := rfl

theorem sleep_delay_eq (p : Program) (k r : Nat) (hr : r ≤ UINT32_MAX)
    (h1 : 1 ≤ r ∨ k = 0) :
    sleep_delay p (k * UINT32_MAX + r)
      = p ++ (List.replicate k (Inst.SMC_SLEEP UINT32_MAX) ++ sleep_delay_switch [] r) := by
  rw [sleep_delay_def, sleep_delay_loop_closed k p r hr h1]
  simp only
  rw [sleep_delay_switch_append, List.append_assoc]

theorem sleep_delay_small (p : Program) (c : Nat) (hc : c ≤ UINT32_MAX) :
    sleep_delay p c = p ++ sleep_delay_switch [] c := by
  have h := sleep_delay_eq p 0 c hc (Or.inr rfl)
  simpa using h

theorem is_padding_all_nops : is_padding all_nops = true := by decide

theorem is_padding_sleep (d : Nat) (h3 : 3 ≤ d) (hM : d ≤ UINT32_MAX) :
    is_padding (Inst.SMC_SLEEP d) = true := by
  simp [is_padding, h3, hM]

theorem pad_cycles_le_of_padding (i : Inst) (h : is_padding i = true) :
    pad_cycles i ≤ UINT32_MAX := by
  cases i with
  | __pack_mininsts m0 m1 m2 m3 => simp [pad_cycles, UINT32_MAX]
  | SMC_SLEEP d =>
    simp only [is_padding, decide_eq_true_eq] at h
    exact h.2
  | full c => simp [pad_cycles, UINT32_MAX]

/-- A padding sequence of `n` bundles occupies at most `n * UINT32_MAX` cycles. -/
theorem pad_cycles_sum_le (seq : List Inst) (h : ∀ i ∈ seq, is_padding i = true) :
    (seq.map pad_cycles).sum ≤ seq.length * UINT32_MAX := by
  induction seq with
  | nil => simp
  | cons i seq ih =>
    have h1 := pad_cycles_le_of_padding i (h i (List.mem_cons_self _ _))
    have h2 := ih (fun j hj => h j (List.mem_cons_of_mem _ hj))
    simp only [List.map_cons, List.sum_cons, List.length_cons, Nat.succ_mul]
    omega

/-- What the `switch` appends for a remainder `r` of at most `UINT32_MAX`. -/
theorem sleep_delay_switch_facts (r : Nat) (hr : r ≤ UINT32_MAX) :
    ((sleep_delay_switch [] r).map pad_cycles).sum = r ∧
    ((sleep_delay_switch [] r).map idle_magnitude).sum
      + (sleep_delay_switch [] r).count all_nops = r ∧
    (∀ i ∈ sleep_delay_switch [] r, is_padding i = true) ∧
    (∀ d, Inst.SMC_SLEEP d ∈ sleep_delay_switch [] r → d ≤ UINT32_MAX) ∧
    (sleep_delay_switch [] r).length = if r = 0 then 0 else if r = 2 then 2 else 1 := by
  match r, hr with
  | 0, _ => simp [sleep_delay_switch]
  | 1, _ =>
    simp [sleep_delay_switch, Program.add_inst, pad_cycles, idle_magnitude, all_nops,
      is_padding]
  | 2, _ =>
    simp [sleep_delay_switch, Program.add_inst, pad_cycles, idle_magnitude, all_nops,
      is_padding]
  | n + 3, hr =>
    simp [sleep_delay_switch, Program.add_inst, pad_cycles, idle_magnitude, all_nops,
      is_padding, hr]

/-- What `sleep_delay` appends for `k * UINT32_MAX + r` cycles. -/
theorem sleep_delay_appended_facts (k r : Nat) (hr : r ≤ UINT32_MAX) :
    ((List.replicate k (Inst.SMC_SLEEP UINT32_MAX) ++ sleep_delay_switch [] r).map
        pad_cycles).sum = k * UINT32_MAX + r ∧
    ((List.replicate k (Inst.SMC_SLEEP UINT32_MAX) ++ sleep_delay_switch [] r).map
        idle_magnitude).sum
      + (List.replicate k (Inst.SMC_SLEEP UINT32_MAX) ++ sleep_delay_switch [] r).count
          all_nops = k * UINT32_MAX + r ∧
    (∀ i ∈ List.replicate k (Inst.SMC_SLEEP UINT32_MAX) ++ sleep_delay_switch [] r,
      is_padding i = true) ∧
    (∀ d, Inst.SMC_SLEEP d ∈
        List.replicate k (Inst.SMC_SLEEP UINT32_MAX) ++ sleep_delay_switch [] r →
      d ≤ UINT32_MAX) := by
  obtain ⟨h1, h2, h3, h4, _⟩ := sleep_delay_switch_facts r hr
  have hcount : (List.replicate k (Inst.SMC_SLEEP UINT32_MAX)).count all_nops = 0 := by
    rw [List.count_replicate]
    simp [all_nops]
  refine ⟨?_, ?_, ?_, ?_⟩
  · simp only [List.map_append, List.sum_append, List.map_replicate, List.sum_replicate,
      pad_cycles, h1, smul_eq_mul]
  · simp only [List.map_append, List.sum_append, List.map_replicate, List.sum_replicate,
      List.count_append, idle_magnitude, hcount, smul_eq_mul]
    omega
  · intro i hi
    rcases List.mem_append.mp hi with hi | hi
    · rw [List.eq_of_mem_replicate hi]
      exact is_padding_sleep _ (by decide) (Nat.le_refl _)
    · exact h3 i hi
  · intro d hd
    rcases List.mem_append.mp hd with hd | hd
    · have := List.eq_of_mem_replicate hd
      simp only [Inst.SMC_SLEEP.injEq] at this
      omega
    · exact h4 d hd

/-! ### Lemmas on `add_op_with_delay` -/

theorem all_nops_eq :
    all_nops
      = Inst.__pack_mininsts Mininst.SMC_NOP Mininst.SMC_NOP Mininst.SMC_NOP
          Mininst.SMC_NOP := rfl

theorem wrap_int_of_range (x : Int) (hlo : INT_MIN ≤ x) (hhi : x ≤ INT_MAX) :
    wrap_int x = x := by
  unfold wrap_int
  unfold INT_MIN at hlo
  unfold INT_MAX at hhi
  omega

theorem nop_loop_lt (p : Program) (r : Int) (h : r < 4) : nop_loop p r = (p, r) := by
  rw [nop_loop]
  simp [Int.not_le.mpr h]

theorem nop_loop_ge (p : Program) (r : Int) (h : 4 ≤ r) :
    nop_loop p r = nop_loop (p ++ [all_nops]) (r - 4) := by
  rw [nop_loop]
  simp [h, Program.add_inst]

theorem nop_loop_steps (n : Nat) :
    ∀ (p : Program) (r : Int), 0 ≤ r → r < 4 →
      nop_loop p (r + 4 * (n : Int)) = (p ++ List.replicate n all_nops, r) := by
  induction n with
  | zero =>
    intro p r _ h4
    simp [nop_loop_lt p r h4]
  | succ n ih =>
    intro p r h0 h4
    have hge : 4 ≤ r + 4 * ((n + 1 : Nat) : Int) := by push_cast; omega
    have hsub : r + 4 * ((n + 1 : Nat) : Int) - 4 = r + 4 * (n : Int) := by push_cast; omega
    rw [nop_loop_ge _ _ hge, hsub, ih _ r h0 h4]
    simp [List.replicate_succ]

/-- Closed form of the loop `while (remaining >= 4)`. -/
theorem nop_loop_closed (p : Program) (x : Int) :
    nop_loop p x
      = (p ++ List.replicate (x / 4).toNat all_nops, x - 4 * ((x / 4).toNat : Int)) := by
  by_cases hx : x < 4
  · have h0 : (x / 4).toNat = 0 := by omega
    rw [nop_loop_lt p x hx, h0]
    simp
  · have hq : ((x / 4).toNat : Int) = x / 4 := by omega
    have hsplit : x = x % 4 + 4 * ((x / 4).toNat : Int) := by omega
    have h := nop_loop_steps (x / 4).toNat p (x % 4) (by omega) (by omega)
    rw [← hsplit] at h
    rw [h]
    congr 1
    omega

theorem nop_loop_pos_le (p : Program) (r : Int) (h : r ≤ 0) : nop_loop_pos p r = (p, r) := by
  rw [nop_loop_pos]
  simp [Int.not_lt.mpr h]

theorem nop_loop_pos_gt (p : Program) (r : Int) (h : 0 < r) :
    nop_loop_pos p r = nop_loop_pos (p ++ [all_nops]) (r - 4) := by
  rw [nop_loop_pos]
  simp [h, Program.add_inst]

theorem nop_loop_pos_steps (n : Nat) :
    ∀ (p : Program) (r : Int), -4 < r → r ≤ 0 →
      nop_loop_pos p (r + 4 * (n : Int)) = (p ++ List.replicate n all_nops, r) := by
  induction n with
  | zero =>
    intro p r _ h0
    simp [nop_loop_pos_le p r h0]
  | succ n ih =>
    intro p r h4 h0
    have hgt : 0 < r + 4 * ((n + 1 : Nat) : Int) := by push_cast; omega
    have hsub : r + 4 * ((n + 1 : Nat) : Int) - 4 = r + 4 * (n : Int) := by push_cast; omega
    rw [nop_loop_pos_gt _ _ hgt, hsub, ih _ r h4 h0]
    simp [List.replicate_succ]

/-- Closed form of the loop `while (remaining > 0)`. -/
theorem nop_loop_pos_closed (p : Program) (x : Int) :
    nop_loop_pos p x
      = (p ++ List.replicate ((x + 3) / 4).toNat all_nops,
          x - 4 * (((x + 3) / 4).toNat : Int)) := by
  by_cases hx : x ≤ 0
  · have h0 : ((x + 3) / 4).toNat = 0 := by omega
    rw [nop_loop_pos_le p x hx, h0]
    simp
  · have hq : (((x + 3) / 4).toNat : Int) = (x + 3) / 4 := by omega
    have hsplit : x = (x - 4 * ((x + 3) / 4)) + 4 * (((x + 3) / 4).toNat : Int) := by omega
    have h := nop_loop_pos_steps ((x + 3) / 4).toNat p (x - 4 * ((x + 3) / 4))
      (by omega) (by omega)
    rw [← hsplit] at h
    rw [h]
    congr 1
    omega

theorem place_switch_slot (p : Program) (ins : Mininst) (s after : Int)
    (h0 : 0 ≤ s) (h3 : s ≤ 3) :
    place_switch p ins s after
      = Except.ok (p ++ [slot_bundle ins s],
          if s = 3 then after else wrap_int (after - (3 - s))) := by
  have hs : s = 0 ∨ s = 1 ∨ s = 2 ∨ s = 3 := by omega
  rcases hs with rfl | rfl | rfl | rfl <;>
    simp [place_switch, slot_bundle, Program.add_inst]

theorem add_op_with_delay_Mininst_def (prog : Program) (ins : Mininst)
    (before_cycles after_cycles : Int) :
    add_op_with_delay_Mininst prog ins before_cycles after_cycles
      = match place_switch
            (nop_loop prog (if before_cycles < 0 then 0 else before_cycles)).1 ins
            (nop_loop prog (if before_cycles < 0 then 0 else before_cycles)).2
            after_cycles with
        | Except.ok (prog, remaining) => Except.ok (nop_loop prog remaining)
        | Except.error e => Except.error e := rfl

/-- Closed form of the sub-bundle `add_op_with_delay`, with `b` the clamped
`before_cycles`, `b % 4` the slot and `r` the value assigned by the `switch`. -/
theorem add_op_with_delay_Mininst_closed (prog : Program) (ins : Mininst)
    (before_cycles after_cycles b r : Int)
    (hb : b = if before_cycles < 0 then 0 else before_cycles)
    (hr : r = if b % 4 = 3 then after_cycles else wrap_int (after_cycles - (3 - b % 4))) :
    add_op_with_delay_Mininst prog ins before_cycles after_cycles
      = Except.ok
          (prog ++ List.replicate (b / 4).toNat all_nops ++ [slot_bundle ins (b % 4)]
            ++ List.replicate (r / 4).toNat all_nops,
           r - 4 * ((r / 4).toNat : Int)) := by
  have hb0 : 0 ≤ b := by
    rw [hb]
    split <;> omega
  have hrem : b - 4 * ((b / 4).toNat : Int) = b % 4 := by omega
  rw [add_op_with_delay_Mininst_def, ← hb, nop_loop_closed prog b]
  simp only
  rw [hrem, place_switch_slot _ ins (b % 4) after_cycles (by omega) (by omega), ← hr]
  simp only
  rw [nop_loop_closed]

theorem add_op_with_delay_Inst_closed (prog : Program) (ins : Inst)
    (before_cycles after_cycles : Int) :
    add_op_with_delay_Inst prog ins before_cycles after_cycles
      = (prog ++ List.replicate ((before_cycles + 3) / 4).toNat all_nops ++ [ins]
            ++ List.replicate (after_cycles / 4).toNat all_nops,
          after_cycles - 4 * ((after_cycles / 4).toNat : Int)) := by
  have hdef : add_op_with_delay_Inst prog ins before_cycles after_cycles
      = nop_loop ((nop_loop_pos prog before_cycles).1 ++ [ins]) after_cycles := rfl
  rw [hdef, nop_loop_pos_closed, nop_loop_closed]

theorem occurrences_replicate_nops (ins : Mininst) (h : ins ≠ Mininst.SMC_NOP) (n : Nat) :
    ((List.replicate n all_nops).map (occurrences ins)).sum = 0 := by
  have h0 : occurrences ins all_nops = 0 := by
    simp [occurrences, all_nops, Ne.symm h]
  simp [List.map_replicate, List.sum_replicate, h0]

theorem occurrences_slot_bundle (ins : Mininst) (h : ins ≠ Mininst.SMC_NOP) (s : Int)
    (h0 : 0 ≤ s) (h3 : s ≤ 3) : occurrences ins (slot_bundle ins s) = 1 := by
  have hs : s = 0 ∨ s = 1 ∨ s = 2 ∨ s = 3 := by omega
  rcases hs with rfl | rfl | rfl | rfl <;>
    simp [occurrences, slot_bundle, Ne.symm h]

/-! ## Theorems on row address translation -/

/-- C1: under the SEQUENTIAL and the SAMSUNG scheme, for every 32-bit value `x`,
`to_physical_row_id x` is a 32-bit value that `to_logical_row_id` sends back to `x`,
and `to_logical_row_id x` is a 32-bit value that `to_physical_row_id` sends back
to `x`. -/
theorem row_translation_round_trip (scheme : LogPhysRowIDScheme)
    (hs : scheme = LogPhysRowIDScheme.SEQUENTIAL ∨ scheme = LogPhysRowIDScheme.SAMSUNG)
    (x : Nat) (hx : x < 2 ^ 32) :
    (∃ p, to_physical_row_id scheme x = some p ∧ p < 2 ^ 32 ∧
        to_logical_row_id scheme p = some x) ∧
    (∃ l, to_logical_row_id scheme x = some l ∧ l < 2 ^ 32 ∧
        to_physical_row_id scheme l = some x) := by
  rcases hs with hs | hs
  · subst hs
    exact ⟨⟨x, rfl, hx, rfl⟩, ⟨x, rfl, hx, rfl⟩⟩
  · subst hs
    obtain ⟨hlt, htw⟩ := samsung_transform_twice x hx
    refine ⟨⟨_, to_physical_samsung x hx, hlt, ?_⟩, ⟨_, to_logical_samsung x hx, hlt, ?_⟩⟩
    · rw [to_logical_samsung _ hlt, htw]
    · rw [to_physical_samsung _ hlt, htw]

/-- Witness of C1 at the SAMSUNG scheme and row 13 (bit 3 set). -/
theorem row_translation_round_trip_witness :
    (∃ p, to_physical_row_id LogPhysRowIDScheme.SAMSUNG 13 = some p ∧ p < 2 ^ 32 ∧
        to_logical_row_id LogPhysRowIDScheme.SAMSUNG p = some 13) ∧
    (∃ l, to_logical_row_id LogPhysRowIDScheme.SAMSUNG 13 = some l ∧ l < 2 ^ 32 ∧
        to_physical_row_id LogPhysRowIDScheme.SAMSUNG l = some 13) :=
  row_translation_round_trip LogPhysRowIDScheme.SAMSUNG (Or.inr rfl) 13 (by norm_num)

/-- C2: under the SAMSUNG scheme both translation functions compute the same
transform of a 32-bit `x`: `x` itself when bit 3 is clear, and `x XOR 6` when bit 3
is set, which inverts bits 1 and 2 and leaves every other bit as it is.  Row 8 goes
to 14, row 14 goes back to 8, and row 0 goes to 0. -/
theorem samsung_bit_transform (x : Nat) (hx : x < 2 ^ 32) :
    (x.testBit 3 = false →
      to_physical_row_id LogPhysRowIDScheme.SAMSUNG x = some x ∧
      to_logical_row_id LogPhysRowIDScheme.SAMSUNG x = some x) ∧
    (x.testBit 3 = true →
      to_physical_row_id LogPhysRowIDScheme.SAMSUNG x = some (x ^^^ 6) ∧
      to_logical_row_id LogPhysRowIDScheme.SAMSUNG x = some (x ^^^ 6)) ∧
    (∀ i, (x ^^^ 6).testBit i = if i = 1 ∨ i = 2 then !(x.testBit i) else x.testBit i) ∧
    to_physical_row_id LogPhysRowIDScheme.SAMSUNG 8 = some 14 ∧
    to_logical_row_id LogPhysRowIDScheme.SAMSUNG 14 = some 8 ∧
    to_physical_row_id LogPhysRowIDScheme.SAMSUNG 0 = some 0 := by
  refine ⟨?_, ?_, ?_, by decide, by decide, by decide⟩
  · intro hb
    rw [to_physical_samsung x hx, to_logical_samsung x hx]
    simp [hb]
  · intro hb
    rw [to_physical_samsung x hx, to_logical_samsung x hx]
    simp [hb]
  · intro i
    rw [Nat.testBit_xor, testBit_six]
    by_cases h1 : i = 1
    · simp [h1]
    · by_cases h2 : i = 2
      · simp [h2]
      · simp [h1, h2]

/-- Witness of C2 at row 4294967295, the largest 32-bit value. -/
theorem samsung_bit_transform_witness :
    (Nat.testBit 4294967295 3 = true →
      to_physical_row_id LogPhysRowIDScheme.SAMSUNG 4294967295 = some (4294967295 ^^^ 6)) ∧
    to_physical_row_id LogPhysRowIDScheme.SAMSUNG 4294967295 = some 4294967289 :=
  ⟨fun hb => ((samsung_bit_transform 4294967295 (by norm_num)).2.1 hb).1,
   ((samsung_bit_transform 4294967295 (by norm_num)).2.1 (by decide)).1⟩

/-! ## Theorems on the register allocator -/

/-- C3: for every file size `N` and reserved list `R`, the successive
`allocate_SMC_REG` calls on a freshly constructed allocator return, one per call,
the strictly ascending list of exactly the indices below `N` that are not in `R`;
the call after the last of them throws `OutOfSoftMCRegsException`.  With `N = 4`
and `R = [1]` the calls return 0, 2, 3 and the fourth call throws. -/
theorem allocate_ascending_from_construction (N : Nat) (R : List Nat) :
    (∃ expected : List SMC_REG,
      expected.Pairwise (fun a b => a < b) ∧
      (∀ i, i ∈ expected ↔ i < N ∧ i ∉ R) ∧
      ∃ a' : SoftMCRegAllocator,
        allocate_many expected.length (SoftMCRegAllocator.construct N R)
          = (Except.ok expected, a') ∧
        a'.allocate_SMC_REG = (Except.error OutOfSoftMCRegsException.mk, a')) ∧
    allocate_many 3 (SoftMCRegAllocator.construct 4 [1]) = (Except.ok [0, 2, 3], ⟨[]⟩) ∧
    (allocate_many 4 (SoftMCRegAllocator.construct 4 [1])).1
      = Except.error OutOfSoftMCRegsException.mk := by
  refine ⟨⟨(SoftMCRegAllocator.construct N R).free_regs, construct_sorted N R,
    construct_mem N R, ⟨[]⟩, ?_, rfl⟩, rfl, rfl⟩
  exact allocate_many_all _

/-- C5, as the code has it: `allocate_SMC_REG` throws `OutOfSoftMCRegsException`
exactly when the free pool is empty; when it throws the pool is unchanged; when it
returns a handle, that handle was the first of the pool, the pool after the call is
the rest of it and holds exactly one handle fewer, and `num_free_regs`, which
reports the size as a `uint`, is one less whenever the pool held fewer than `2 ^ 32`
handles. -/
theorem allocate_fails_iff_empty (a : SoftMCRegAllocator) :
    (a.allocate_SMC_REG.1 = Except.error OutOfSoftMCRegsException.mk ↔ a.free_regs = []) ∧
    (a.allocate_SMC_REG.1 = Except.error OutOfSoftMCRegsException.mk →
      a.allocate_SMC_REG.2 = a) ∧
    (∀ r, a.allocate_SMC_REG.1 = Except.ok r →
      a.free_regs = r :: a.allocate_SMC_REG.2.free_regs ∧
      a.allocate_SMC_REG.2.free_regs.length + 1 = a.free_regs.length ∧
      (a.free_regs.length < 2 ^ 32 →
        a.allocate_SMC_REG.2.num_free_regs + 1 = a.num_free_regs)) := by
  obtain ⟨l⟩ := a
  cases l with
  | nil =>
    refine ⟨⟨fun _ => rfl, fun _ => rfl⟩, fun _ => rfl, ?_⟩
    intro r h
    simp [SoftMCRegAllocator.allocate_SMC_REG] at h
  | cons x rest =>
    refine ⟨⟨?_, ?_⟩, ?_, ?_⟩
    · intro h
      simp [SoftMCRegAllocator.allocate_SMC_REG] at h
    · intro h
      simp at h
    · intro h
      simp [SoftMCRegAllocator.allocate_SMC_REG] at h
    · intro r h
      simp only [allocate_cons, Except.ok.injEq] at h
      subst h
      refine ⟨rfl, rfl, ?_⟩
      intro hlen
      simp only [allocate_cons, SoftMCRegAllocator.num_free_regs, List.length_cons] at hlen ⊢
      rw [Nat.mod_eq_of_lt hlen, Nat.mod_eq_of_lt (by omega)]

/-- Witness of C5 (as the code has it) at the pool `[2, 3]`. -/
theorem allocate_fails_iff_empty_witness :
    (SoftMCRegAllocator.mk [2, 3]).allocate_SMC_REG.1 = Except.ok 2 ∧
    [2, 3] = 2 :: (SoftMCRegAllocator.mk [2, 3]).allocate_SMC_REG.2.free_regs ∧
    (SoftMCRegAllocator.mk [2, 3]).allocate_SMC_REG.2.free_regs.length + 1
      = (SoftMCRegAllocator.mk [2, 3]).free_regs.length ∧
    (SoftMCRegAllocator.mk [2, 3]).allocate_SMC_REG.2.num_free_regs + 1
      = (SoftMCRegAllocator.mk [2, 3]).num_free_regs :=
  ⟨rfl, ((allocate_fails_iff_empty ⟨[2, 3]⟩).2.2 2 rfl).1,
    ((allocate_fails_iff_empty ⟨[2, 3]⟩).2.2 2 rfl).2.1,
    ((allocate_fails_iff_empty ⟨[2, 3]⟩).2.2 2 rfl).2.2 (by decide)⟩

/-- C5 as stated fails: on the pool of the `2 ^ 32` handles `0 .. 2 ^ 32 - 1`,
`num_free_regs` is 0 (the size converted to `uint`), `allocate_SMC_REG` returns
handle 0, and `num_free_regs` is then 4294967295: it has not decreased by 1. -/
theorem num_free_regs_wraps_on_allocate :
    (SoftMCRegAllocator.mk (List.range 4294967296)).allocate_SMC_REG.1 = Except.ok 0 ∧
    (SoftMCRegAllocator.mk (List.range 4294967296)).num_free_regs = 0 ∧
    (SoftMCRegAllocator.mk (List.range 4294967296)).allocate_SMC_REG.2.num_free_regs
      = 4294967295 ∧
    ¬ ((SoftMCRegAllocator.mk (List.range 4294967296)).allocate_SMC_REG.2.num_free_regs + 1
      = (SoftMCRegAllocator.mk (List.range 4294967296)).num_free_regs) := by
  have h0 : (SoftMCRegAllocator.mk (List.range 4294967296)).num_free_regs = 0 :=
    (num_free_regs_range 4294967296).trans (by norm_num)
  have h1 : (SoftMCRegAllocator.mk (List.range 4294967296)).allocate_SMC_REG.2.num_free_regs
      = 4294967295 :=
    (num_free_regs_after_allocate_range 4294967295).trans (by norm_num)
  have ha : (SoftMCRegAllocator.mk (List.range 4294967296)).allocate_SMC_REG.1
      = Except.ok 0 :=
    congrArg Prod.fst (allocate_range_succ 4294967295)
  refine ⟨ha, h0, h1, ?_⟩
  rw [h0, h1]
  norm_num

/-- C6: `free_SMC_REG a h` fails its assertion exactly when `h` is already in the
free pool; when it fails the pool is unchanged; when it is accepted the new pool is
the old one with `h` appended at the end. -/
theorem free_fails_iff_present (a : SoftMCRegAllocator) (h : SMC_REG) :
    ((a.free_SMC_REG h).1 = Except.error AssertionFailure.mk ↔ h ∈ a.free_regs) ∧
    ((a.free_SMC_REG h).1 = Except.error AssertionFailure.mk → (a.free_SMC_REG h).2 = a) ∧
    ((a.free_SMC_REG h).1 = Except.ok () →
      (a.free_SMC_REG h).2.free_regs = a.free_regs ++ [h]) := by
  by_cases hm : h ∈ a.free_regs
  · rw [free_present a h hm]
    simp [hm]
  · rw [free_absent a h hm]
    simp [hm]

/-- Witness of C6: on the pool `[3]`, handle 3 is refused and handle 0 is appended. -/
theorem free_fails_iff_present_witness :
    ((SoftMCRegAllocator.mk [3]).free_SMC_REG 3).2 = ⟨[3]⟩ ∧
    ((SoftMCRegAllocator.mk [3]).free_SMC_REG 0).2.free_regs = [3] ++ [0] :=
  ⟨(free_fails_iff_present ⟨[3]⟩ 3).2.1 rfl, (free_fails_iff_present ⟨[3]⟩ 0).2.2 rfl⟩

/-- C8, as the code has it: when `h` is not in a free pool of `n` handles,
`free_SMC_REG h` is accepted and the pool then holds exactly `n + 1` handles;
`num_free_regs`, which reports the size as a `uint`, is `n + 1` (one more than
before) whenever `n + 1 < 2 ^ 32`; and the next `n + 1` calls of `allocate_SMC_REG`
return the previously free handles in their previous order followed by `h`. -/
theorem free_then_allocatable (a : SoftMCRegAllocator) (h : SMC_REG)
    (hfree : h ∉ a.free_regs) :
    (a.free_SMC_REG h).1 = Except.ok () ∧
    (a.free_SMC_REG h).2.free_regs.length = a.free_regs.length + 1 ∧
    (a.free_regs.length + 1 < 2 ^ 32 →
      (a.free_SMC_REG h).2.num_free_regs = a.free_regs.length + 1 ∧
      (a.free_SMC_REG h).2.num_free_regs = a.num_free_regs + 1) ∧
    allocate_many (a.free_regs.length + 1) (a.free_SMC_REG h).2
      = (Except.ok (a.free_regs ++ [h]), ⟨[]⟩) := by
  have hf := free_absent a h hfree
  rw [hf]
  refine ⟨rfl, ?_, ?_, ?_⟩
  · simp only [List.length_append, List.length_singleton]
  · intro hsize
    simp only [SoftMCRegAllocator.num_free_regs, List.length_append, List.length_singleton]
    rw [Nat.mod_eq_of_lt hsize, Nat.mod_eq_of_lt (by omega)]
    exact ⟨rfl, rfl⟩
  · have := allocate_many_all (a.free_regs ++ [h])
    simpa using this

/-- Witness of C8 (as the code has it): pool of size 4 with reserved `[1]`, handles
0 and 2 allocated, then 0 released: the free count goes from 1 to 2 and the next
handles are 3, 0. -/
theorem free_then_allocatable_witness :
    (Session.init 4 [1]).run [Call.allocate, Call.allocate] = some ⟨⟨[3]⟩, [2, 0]⟩ ∧
    (SoftMCRegAllocator.mk [3]).num_free_regs = 1 ∧
    ((SoftMCRegAllocator.mk [3]).free_SMC_REG 0).2.free_regs.length = 1 + 1 ∧
    ((SoftMCRegAllocator.mk [3]).free_SMC_REG 0).2.num_free_regs = 1 + 1 ∧
    allocate_many 2 ((SoftMCRegAllocator.mk [3]).free_SMC_REG 0).2
      = (Except.ok [3, 0], ⟨[]⟩) :=
  ⟨rfl, rfl,
    (free_then_allocatable ⟨[3]⟩ 0 (by decide)).2.1,
    ((free_then_allocatable ⟨[3]⟩ 0 (by decide)).2.2.1 (by decide)).1,
    (free_then_allocatable ⟨[3]⟩ 0 (by decide)).2.2.2⟩

/-- C8 as stated fails: on the pool of the `n = 2 ^ 32 - 1` handles
`0 .. 2 ^ 32 - 2`, handle 4294967295 is not in the pool and `free_SMC_REG` accepts
it, but `num_free_regs` is then 0 (the size `2 ^ 32` converted to `uint`), not
`n + 1`. -/
theorem num_free_regs_wraps_on_free :
    4294967295 ∉ (SoftMCRegAllocator.mk (List.range 4294967295)).free_regs ∧
    (SoftMCRegAllocator.mk (List.range 4294967295)).free_regs.length = 4294967295 ∧
    (SoftMCRegAllocator.mk (List.range 4294967295)).num_free_regs = 4294967295 ∧
    ((SoftMCRegAllocator.mk (List.range 4294967295)).free_SMC_REG 4294967295).1
      = Except.ok () ∧
    ((SoftMCRegAllocator.mk (List.range 4294967295)).free_SMC_REG 4294967295).2.num_free_regs
      = 0 ∧
    ¬ (((SoftMCRegAllocator.mk (List.range 4294967295)).free_SMC_REG
          4294967295).2.num_free_regs = 4294967295 + 1) := by
  have h0 : ((SoftMCRegAllocator.mk (List.range 4294967295)).free_SMC_REG
      4294967295).2.num_free_regs = 0 :=
    (num_free_regs_after_free_range 4294967295).trans (by norm_num)
  refine ⟨not_mem_range_pool 4294967295, length_range_pool 4294967295,
    (num_free_regs_range 4294967295).trans (by norm_num),
    congrArg Prod.fst (free_range_self 4294967295), h0, ?_⟩
  rw [h0]
  norm_num

/-- C4, as the code has it: in every state reached from construction by
`allocate_SMC_REG` and accepted `free_SMC_REG` calls, a successful
`allocate_SMC_REG` removes and returns the handle at the front of the free pool and
leaves the rest in order; that handle is the lowest-valued one of the pool whenever
the state was reached by `allocate_SMC_REG` calls alone. -/
theorem allocate_returns_front (N : Nat) (R : List Nat) (calls : List Call) (s : Session)
    (hreach : (Session.init N R).run calls = some s)
    (r : SMC_REG) (a' : SoftMCRegAllocator)
    (halloc : s.alloc.allocate_SMC_REG = (Except.ok r, a')) :
    s.alloc.free_regs = r :: a'.free_regs ∧
    ((∀ c ∈ calls, c = Call.allocate) → ∀ x ∈ s.alloc.free_regs, r ≤ x) := by
  have hfront := allocate_eq_ok s.alloc a' r halloc
  refine ⟨hfront, ?_⟩
  intro hall x hx
  have hsorted := ascending_reachable N R calls s hall hreach
  rw [hfront] at hsorted hx
  rcases List.mem_cons.mp hx with rfl | hx
  · exact Nat.le_refl _
  · exact Nat.le_of_lt ((List.pairwise_cons.mp hsorted).1 x hx)

/-- Witness of C4 (as the code has it): size 4, reserved `[1]`, after one allocation
the next one returns 2 out of the pool `[2, 3]`. -/
theorem allocate_returns_front_witness :
    (Session.init 4 [1]).run [Call.allocate] = some ⟨⟨[2, 3]⟩, [0]⟩ ∧
    (SoftMCRegAllocator.mk [2, 3]).allocate_SMC_REG = (Except.ok 2, ⟨[3]⟩) ∧
    [2, 3] = 2 :: [3] ∧ ∀ x ∈ [2, 3], 2 ≤ x :=
  ⟨rfl, rfl,
    (allocate_returns_front 4 [1] [Call.allocate] ⟨⟨[2, 3]⟩, [0]⟩ rfl 2 ⟨[3]⟩ rfl).1,
    (allocate_returns_front 4 [1] [Call.allocate] ⟨⟨[2, 3]⟩, [0]⟩ rfl 2 ⟨[3]⟩ rfl).2
      (by decide)⟩

/-- C4 as stated fails: size 4, reserved `[1]`; after allocating 0 and 2 and
releasing 0 the pool is `[3, 0]`, and the next allocation returns 3 although the
lower handle 0 is in the pool. -/
theorem allocate_not_lowest_after_release :
    (Session.init 4 [1]).run [Call.allocate, Call.allocate, Call.free 0]
      = some ⟨⟨[3, 0]⟩, [2]⟩ ∧
    (SoftMCRegAllocator.mk [3, 0]).allocate_SMC_REG = (Except.ok 3, ⟨[0]⟩) ∧
    ¬ (∀ x ∈ (SoftMCRegAllocator.mk [3, 0]).free_regs, 3 ≤ x) := by
  refine ⟨rfl, rfl, ?_⟩
  intro h
  exact absurd (h 0 (by decide)) (by decide)

/-- C7, as the code has it: in every state reached from construction by any calls,
`free_SMC_REG` fails its assertion on every handle that is in the free pool, which
includes every index below `N` outside `R` that is not currently held; a handle
that is absent from the pool is accepted and appended to the pool, whether or not
it is held. -/
theorem free_of_unheld_pool_handle_fails (N : Nat) (R : List Nat) (calls : List Call)
    (s : Session) (hreach : (Session.init N R).run calls = some s) (h : SMC_REG) :
    (h ∈ s.alloc.free_regs → (s.alloc.free_SMC_REG h).1 = Except.error AssertionFailure.mk) ∧
    (h < N → h ∉ R → h ∉ s.held →
      (s.alloc.free_SMC_REG h).1 = Except.error AssertionFailure.mk) ∧
    (h ∉ s.alloc.free_regs →
      s.alloc.free_SMC_REG h = (Except.ok (), ⟨s.alloc.free_regs ++ [h]⟩)) := by
  have hfail : h ∈ s.alloc.free_regs →
      (s.alloc.free_SMC_REG h).1 = Except.error AssertionFailure.mk := fun hm => by
    rw [free_present s.alloc h hm]
  refine ⟨hfail, ?_, ?_⟩
  · intro hN hR hheld
    rcases accounted_reachable N R calls s hreach h hN hR with hh | hf
    · exact absurd hh hheld
    · exact hfail hf
  · intro hm
    exact free_absent s.alloc h hm

/-- Witness of C7 (as the code has it): size 4, reserved `[1]`, handles 0 and 2
allocated and 0 released; releasing 0 again, or 3, fails, and releasing the reserved
handle 1 is accepted and appends it. -/
theorem free_of_unheld_pool_handle_fails_witness :
    (Session.init 4 [1]).run [Call.allocate, Call.allocate, Call.free 0]
      = some ⟨⟨[3, 0]⟩, [2]⟩ ∧
    ((SoftMCRegAllocator.mk [3, 0]).free_SMC_REG 0).1 = Except.error AssertionFailure.mk ∧
    ((SoftMCRegAllocator.mk [3, 0]).free_SMC_REG 3).1 = Except.error AssertionFailure.mk ∧
    (SoftMCRegAllocator.mk [3, 0]).free_SMC_REG 1 = (Except.ok (), ⟨[3, 0] ++ [1]⟩) :=
  ⟨rfl,
    (free_of_unheld_pool_handle_fails 4 [1] [Call.allocate, Call.allocate, Call.free 0]
      ⟨⟨[3, 0]⟩, [2]⟩ rfl 0).1 (by decide),
    (free_of_unheld_pool_handle_fails 4 [1] [Call.allocate, Call.allocate, Call.free 0]
      ⟨⟨[3, 0]⟩, [2]⟩ rfl 3).2.1 (by decide) (by decide) (by decide),
    (free_of_unheld_pool_handle_fails 4 [1] [Call.allocate, Call.allocate, Call.free 0]
      ⟨⟨[3, 0]⟩, [2]⟩ rfl 1).2.2 (by decide)⟩

/-- C7 as stated fails: size 4, reserved `[1]`; right after construction handle 1
is reserved and not held, and `free_SMC_REG 1` is accepted and puts it in the pool. -/
theorem free_of_reserved_handle_accepted :
    (Session.init 4 [1]).held = [] ∧
    (Session.init 4 [1]).alloc.free_regs = [0, 2, 3] ∧
    (Session.init 4 [1]).alloc.free_SMC_REG 1 = (Except.ok (), ⟨[0, 2, 3, 1]⟩) :=
  ⟨rfl, rfl, rfl⟩

/-- C9, as the code has it: in every state reached from construction by
`allocate_SMC_REG` calls and by `free_SMC_REG` calls on handles that are held when
released, the free pool contains no handle of `R`, no handle of `R` is held, and
`allocate_SMC_REG` does not return a handle of `R`. -/
theorem pool_never_contains_reserved (N : Nat) (R : List Nat) (calls : List Call)
    (s : Session) (hheld : (Session.init N R).releasesHeldOnly calls = true)
    (hreach : (Session.init N R).run calls = some s) :
    (∀ h, h ∈ R → h ∉ s.alloc.free_regs) ∧
    (∀ h, h ∈ R → h ∉ s.held) ∧
    (∀ r a', s.alloc.allocate_SMC_REG = (Except.ok r, a') → r ∉ R) := by
  have hinv := reservedUntouched_reachable N R calls s hheld hreach
  refine ⟨fun h hR => (hinv h hR).2, fun h hR => (hinv h hR).1, ?_⟩
  intro r a' halloc hR
  have hfront := allocate_eq_ok s.alloc a' r halloc
  exact (hinv r hR).2 (hfront ▸ List.mem_cons_self _ _)

/-- Witness of C9 (as the code has it): size 4, reserved `[1]`, handles 0 and 2
allocated and 0 released. -/
theorem pool_never_contains_reserved_witness :
    (Session.init 4 [1]).releasesHeldOnly [Call.allocate, Call.allocate, Call.free 0] = true ∧
    (Session.init 4 [1]).run [Call.allocate, Call.allocate, Call.free 0]
      = some ⟨⟨[3, 0]⟩, [2]⟩ ∧
    ∀ h, h ∈ [1] → h ∉ (SoftMCRegAllocator.mk [3, 0]).free_regs :=
  ⟨rfl, rfl,
    (pool_never_contains_reserved 4 [1] [Call.allocate, Call.allocate, Call.free 0]
      ⟨⟨[3, 0]⟩, [2]⟩ rfl rfl).1⟩

/-- C9 as stated fails: size 4, reserved `[1]`; the call `free_SMC_REG 1` does not
fail, the pool then contains the reserved handle 1, and the fourth allocation
returns it. -/
theorem reserved_handle_enters_pool :
    (Session.init 4 [1]).run [Call.free 1] = some ⟨⟨[0, 2, 3, 1]⟩, []⟩ ∧
    1 ∈ (SoftMCRegAllocator.mk [0, 2, 3, 1]).free_regs ∧
    (Session.init 4 [1]).run
        [Call.free 1, Call.allocate, Call.allocate, Call.allocate]
      = some ⟨⟨[1]⟩, [3, 2, 0]⟩ ∧
    (SoftMCRegAllocator.mk [1]).allocate_SMC_REG = (Except.ok 1, ⟨[]⟩) :=
  ⟨rfl, by decide, rfl, rfl⟩

/-- C10: in every state reached from construction by any sequence of calls, the free
pool holds no handle twice and no handle is both held and in the pool; hence
`allocate_SMC_REG` never returns a handle that is currently held (the held list has
no handle twice), and `free_SMC_REG` on a held handle is accepted. -/
theorem held_and_free_exclusive (N : Nat) (R : List Nat) (calls : List Call)
    (s : Session) (hreach : (Session.init N R).run calls = some s) :
    s.alloc.free_regs.Nodup ∧
    (∀ h, h ∈ s.held → h ∉ s.alloc.free_regs) ∧
    s.held.Nodup ∧
    (∀ r a', s.alloc.allocate_SMC_REG = (Except.ok r, a') → r ∉ s.held) ∧
    (∀ h, h ∈ s.held → (s.alloc.free_SMC_REG h).1 = Except.ok ()) := by
  obtain ⟨hnd, hhd, hdisj⟩ := exclusive_reachable N R calls s hreach
  refine ⟨hnd, hdisj, hhd, ?_, ?_⟩
  · intro r a' halloc hr
    have hfront := allocate_eq_ok s.alloc a' r halloc
    exact hdisj r hr (hfront ▸ List.mem_cons_self _ _)
  · intro h hh
    rw [free_absent s.alloc h (hdisj h hh)]

/-- Witness of C10: size 4, reserved `[1]`, handles 0 and 2 allocated and 0 released:
handle 2 is held, is not in the pool `[3, 0]`, and its release is accepted. -/
theorem held_and_free_exclusive_witness :
    (Session.init 4 [1]).run [Call.allocate, Call.allocate, Call.free 0]
      = some ⟨⟨[3, 0]⟩, [2]⟩ ∧
    (SoftMCRegAllocator.mk [3, 0]).free_regs.Nodup ∧
    (∀ h, h ∈ [2] → h ∉ (SoftMCRegAllocator.mk [3, 0]).free_regs) ∧
    ((SoftMCRegAllocator.mk [3, 0]).free_SMC_REG 2).1 = Except.ok () :=
  ⟨rfl,
    (held_and_free_exclusive 4 [1] [Call.allocate, Call.allocate, Call.free 0]
      ⟨⟨[3, 0]⟩, [2]⟩ rfl).1,
    (held_and_free_exclusive 4 [1] [Call.allocate, Call.allocate, Call.free 0]
      ⟨⟨[3, 0]⟩, [2]⟩ rfl).2.1,
    (held_and_free_exclusive 4 [1] [Call.allocate, Call.allocate, Call.free 0]
      ⟨⟨[3, 0]⟩, [2]⟩ rfl).2.2.2.2 2 (by decide)⟩

/-! ## Theorems on `sleep_delay` -/

/-- C11: for a duration `cycles` of at most `UINT32_MAX`, `sleep_delay` appends
nothing when `cycles = 0`, exactly `cycles` all-NOP bundles (four NOP
mini-instructions each) when `cycles` is 1 or 2, and otherwise the single idle
instruction `SMC_SLEEP cycles`. -/
theorem sleep_delay_small_duration (program : Program) (cycles : Nat)
    (hc : cycles ≤ UINT32_MAX) :
    sleep_delay program cycles
      = program ++
        (if cycles = 0 then []
         else if cycles = 1 ∨ cycles = 2 then List.replicate cycles all_nops
         else [Inst.SMC_SLEEP cycles]) ∧
    all_nops
      = Inst.__pack_mininsts Mininst.SMC_NOP Mininst.SMC_NOP Mininst.SMC_NOP
          Mininst.SMC_NOP := by
  refine ⟨?_, rfl⟩
  rw [sleep_delay_small program cycles hc, sleep_delay_switch_nil]

/-- Witness of C11: the durations 0, 1, 2, 3 and 4 on the empty program. -/
theorem sleep_delay_small_duration_witness :
    sleep_delay [] 0 = [] ∧
    sleep_delay [] 1 = [all_nops] ∧
    sleep_delay [] 2 = [all_nops, all_nops] ∧
    sleep_delay [] 3 = [Inst.SMC_SLEEP 3] ∧
    sleep_delay [] 4 = [Inst.SMC_SLEEP 4] :=
  ⟨(sleep_delay_small_duration [] 0 (by decide)).1,
   (sleep_delay_small_duration [] 1 (by decide)).1,
   (sleep_delay_small_duration [] 2 (by decide)).1,
   (sleep_delay_small_duration [] 3 (by decide)).1,
   (sleep_delay_small_duration [] 4 (by decide)).1⟩

/-- C14, as the code has it: for every duration `cycles`, the bundles `sleep_delay`
appends are padding bundles that occupy exactly `cycles` cycles; when the remainder
left by the decomposition loop is not 2, no padding sequence (all-NOP bundles and
idle instructions of magnitude 3 to `UINT32_MAX`) that occupies at least `cycles`
cycles is shorter. -/
theorem sleep_delay_fewest_bundles (program : Program) (cycles : Nat) :
    ∃ appended : List Inst,
      sleep_delay program cycles = program ++ appended ∧
      (∀ i ∈ appended, is_padding i = true) ∧
      (appended.map pad_cycles).sum = cycles ∧
      ((sleep_delay_loop program cycles).2 ≠ 2 →
        ∀ seq : List Inst, (∀ i ∈ seq, is_padding i = true) →
          cycles ≤ (seq.map pad_cycles).sum → appended.length ≤ seq.length) := by
  obtain ⟨k, r, hr, h1, hc, h0, hpos⟩ := sleep_decompose cycles
  obtain ⟨f1, _, f3, _⟩ := sleep_delay_appended_facts k r hr
  obtain ⟨_, _, _, _, flen⟩ := sleep_delay_switch_facts r hr
  refine ⟨_, hc ▸ sleep_delay_eq program k r hr h1, f3, hc ▸ f1, ?_⟩
  intro hne seq hseq hsum
  rw [hc, sleep_delay_loop_closed k program r hr h1] at hne
  simp only [ne_eq] at hne
  have hbound := pad_cycles_sum_le seq hseq
  rw [List.length_append, List.length_replicate, flen]
  by_cases hr0 : r = 0
  · have hk : k = 0 := by
      rcases h1 with h | h
      · omega
      · exact h
    simp [hr0, hk]
  · simp only [hr0, hne, if_false]
    by_contra hlt
    have hle : seq.length ≤ k := by omega
    have hmul : seq.length * UINT32_MAX ≤ k * UINT32_MAX := Nat.mul_le_mul_right _ hle
    omega

/-- Witness of C14 (as the code has it): the duration 3, against the one-bundle
sequence `SMC_SLEEP 5`. -/
theorem sleep_delay_fewest_bundles_witness :
    ∃ appended : List Inst,
      sleep_delay [] 3 = [] ++ appended ∧
      (appended.map pad_cycles).sum = 3 ∧
      appended.length ≤ [Inst.SMC_SLEEP 5].length := by
  obtain ⟨appended, h1, _, h3, h4⟩ := sleep_delay_fewest_bundles [] 3
  refine ⟨appended, h1, h3, h4 ?_ [Inst.SMC_SLEEP 5] ?_ ?_⟩
  · rw [sleep_delay_loop_le [] 3 (by decide)]
    decide
  · intro i hi
    rw [List.mem_singleton] at hi
    subst hi
    decide
  · decide

/-- C14 as stated fails: for the duration 2, `sleep_delay` appends two all-NOP
bundles, while the single idle instruction `SMC_SLEEP 3` is a padding sequence that
occupies 3 cycles, at least 2, and is shorter. -/
theorem sleep_delay_two_not_fewest :
    sleep_delay [] 2 = [all_nops, all_nops] ∧
    (∀ i ∈ [Inst.SMC_SLEEP 3], is_padding i = true) ∧
    2 ≤ ([Inst.SMC_SLEEP 3].map pad_cycles).sum ∧
    [Inst.SMC_SLEEP 3].length < (sleep_delay [] 2).length := by
  have h2 : sleep_delay [] 2 = [all_nops, all_nops] := by
    rw [sleep_delay_small [] 2 (by decide), sleep_delay_switch_nil]
    simp [List.replicate]
  refine ⟨h2, ?_, by decide, ?_⟩
  · intro i hi
    rw [List.mem_singleton] at hi
    subst hi
    decide
  · rw [h2]
    decide

/-- C19, as the code has it: for every duration `cycles`, the value of `sleep_time`
when the decomposition loop exits is at most `UINT32_MAX`; it is `UINT32_MAX` itself
when `cycles` is a positive multiple of `UINT32_MAX`. -/
theorem sleep_delay_loop_remainder_le (program : Program) (cycles : Nat) :
    (sleep_delay_loop program cycles).2 ≤ UINT32_MAX ∧
    (0 < cycles → cycles % UINT32_MAX = 0 →
      (sleep_delay_loop program cycles).2 = UINT32_MAX) := by
  obtain ⟨k, r, hr, h1, hc, _, hpos⟩ := sleep_decompose cycles
  rw [hc, sleep_delay_loop_closed k program r hr h1]
  refine ⟨hr, ?_⟩
  intro h0 hmod
  have hr1 : 1 ≤ r := hpos (hc ▸ h0)
  rw [Nat.mul_comm, Nat.mul_add_mod] at hmod
  show r = UINT32_MAX
  rcases Nat.lt_or_eq_of_le hr with hlt | heq
  · rw [Nat.mod_eq_of_lt hlt] at hmod
    omega
  · exact heq

/-- Witness of C19 (as the code has it): the duration `2 * UINT32_MAX`. -/
theorem sleep_delay_loop_remainder_le_witness :
    (sleep_delay_loop [] 8589934590).2 ≤ UINT32_MAX ∧
    (sleep_delay_loop [] 8589934590).2 = UINT32_MAX :=
  ⟨(sleep_delay_loop_remainder_le [] 8589934590).1,
   (sleep_delay_loop_remainder_le [] 8589934590).2 (by decide) (by decide)⟩

/-- C19 as stated fails: for the duration `2 * UINT32_MAX` the loop runs once and
exits with `sleep_time = UINT32_MAX`, which is not strictly below `UINT32_MAX`; the
same remainder is left for the duration `UINT32_MAX`, where the loop does not run. -/
theorem sleep_delay_loop_remainder_not_lt :
    sleep_delay_loop [] 8589934590 = ([Inst.SMC_SLEEP UINT32_MAX], 4294967295) ∧
    sleep_delay_loop [] 4294967295 = ([], 4294967295) ∧
    ¬ ((sleep_delay_loop [] 8589934590).2 < UINT32_MAX) := by
  have h2 : sleep_delay_loop [] 8589934590 = ([Inst.SMC_SLEEP UINT32_MAX], 4294967295) := by
    have h := sleep_delay_loop_closed 1 [] 4294967295 (by decide) (Or.inl (by decide))
    simpa [UINT32_MAX] using h
  refine ⟨h2, sleep_delay_loop_le [] 4294967295 (by decide), ?_⟩
  rw [h2]
  decide

/-! ## Theorems on `add_op_with_delay` -/

/-- C15: for every mini-instruction `ins`, every `before_cycles >= 0` and every
`after_cycles`, the sub-bundle `add_op_with_delay` leaves the existing program in
place and appends `before_cycles / 4` (rounded down) all-NOP bundles, then one
bundle holding `ins` in slot `before_cycles % 4` and NOP in the other three slots,
then all-NOP bundles only; an `ins` other than NOP occupies exactly one slot of the
appended bundles.  An all-NOP bundle is `__pack_mininsts` of four `SMC_NOP`. -/
theorem add_op_with_delay_Mininst_layout (prog : Program) (ins : Mininst)
    (before_cycles after_cycles : Int) (hb : 0 ≤ before_cycles) :
    ∃ (k : Nat) (ret : Int),
      add_op_with_delay_Mininst prog ins before_cycles after_cycles
        = Except.ok
            (prog ++
              (List.replicate (before_cycles / 4).toNat
                  (Inst.__pack_mininsts Mininst.SMC_NOP Mininst.SMC_NOP Mininst.SMC_NOP
                    Mininst.SMC_NOP)
                ++ [slot_bundle ins (before_cycles % 4)]
                ++ List.replicate k
                  (Inst.__pack_mininsts Mininst.SMC_NOP Mininst.SMC_NOP Mininst.SMC_NOP
                    Mininst.SMC_NOP)), ret) ∧
      ((before_cycles / 4).toNat : Int) = before_cycles / 4 ∧
      0 ≤ before_cycles % 4 ∧ before_cycles % 4 ≤ 3 ∧
      (ins ≠ Mininst.SMC_NOP →
        ((List.replicate (before_cycles / 4).toNat
              (Inst.__pack_mininsts Mininst.SMC_NOP Mininst.SMC_NOP Mininst.SMC_NOP
                Mininst.SMC_NOP)
            ++ [slot_bundle ins (before_cycles % 4)]
            ++ List.replicate k
              (Inst.__pack_mininsts Mininst.SMC_NOP Mininst.SMC_NOP Mininst.SMC_NOP
                Mininst.SMC_NOP)).map
          (occurrences ins)).sum = 1) ∧
      slot_bundle ins (before_cycles % 4)
        = Inst.__pack_mininsts
            (if before_cycles % 4 = 0 then ins else Mininst.SMC_NOP)
            (if before_cycles % 4 = 1 then ins else Mininst.SMC_NOP)
            (if before_cycles % 4 = 2 then ins else Mininst.SMC_NOP)
            (if before_cycles % 4 = 3 then ins else Mininst.SMC_NOP) := by
  simp only [← all_nops_eq]
  have hclamp : before_cycles = if before_cycles < 0 then 0 else before_cycles := by
    rw [if_neg (by omega)]
  obtain ⟨r, hr⟩ : ∃ r : Int, r = if before_cycles % 4 = 3 then after_cycles
      else wrap_int (after_cycles - (3 - before_cycles % 4)) := ⟨_, rfl⟩
  have h := add_op_with_delay_Mininst_closed prog ins before_cycles after_cycles
    before_cycles r hclamp hr
  refine ⟨(r / 4).toNat, r - 4 * ((r / 4).toNat : Int), ?_,
    by omega, by omega, by omega, ?_, rfl⟩
  · rw [h]
    simp only [List.append_assoc]
  · intro hne
    simp only [List.map_append, List.sum_append, occurrences_replicate_nops ins hne,
      List.map_cons, List.map_nil, List.sum_cons, List.sum_nil,
      occurrences_slot_bundle ins hne (before_cycles % 4) (by omega) (by omega)]
    rfl

/-- Witness of C15: `before_cycles = 6`, `after_cycles = 9` on the empty program: one
all-NOP bundle, the operation in slot 2, then two all-NOP bundles. -/
theorem add_op_with_delay_Mininst_layout_witness :
    ∃ (k : Nat) (ret : Int),
      add_op_with_delay_Mininst [] (Mininst.op 7) 6 9
        = Except.ok
            ([] ++ (List.replicate ((6 : Int) / 4).toNat (Inst.__pack_mininsts Mininst.SMC_NOP
                Mininst.SMC_NOP Mininst.SMC_NOP Mininst.SMC_NOP)
              ++ [slot_bundle (Mininst.op 7) ((6 : Int) % 4)] ++ List.replicate k (Inst.__pack_mininsts Mininst.SMC_NOP
                Mininst.SMC_NOP Mininst.SMC_NOP Mininst.SMC_NOP)),
              ret) ∧
      ((List.replicate ((6 : Int) / 4).toNat (Inst.__pack_mininsts Mininst.SMC_NOP
                Mininst.SMC_NOP Mininst.SMC_NOP Mininst.SMC_NOP)
          ++ [slot_bundle (Mininst.op 7) ((6 : Int) % 4)] ++ List.replicate k (Inst.__pack_mininsts Mininst.SMC_NOP
                Mininst.SMC_NOP Mininst.SMC_NOP Mininst.SMC_NOP)).map
        (occurrences (Mininst.op 7))).sum = 1 := by
  obtain ⟨k, ret, h1, _, _, _, h5, _⟩ :=
    add_op_with_delay_Mininst_layout [] (Mininst.op 7) 6 9 (by decide)
  exact ⟨k, ret, h1, h5 (by decide)⟩

/-- C17: for every full-width instruction `ins` and every `before_cycles` and
`after_cycles`, the whole-bundle `add_op_with_delay` appends, in order,
`before_cycles / 4` rounded up all-NOP bundles when `before_cycles > 0` (one bundle
for 1, 2 or 3) and none otherwise, then `ins` once as a bundle of its own, then
`after_cycles / 4` rounded down all-NOP bundles when `after_cycles >= 4` and none
otherwise; it returns `after_cycles` minus 4 times the number of trailing bundles,
which is below 4.  An all-NOP bundle is `__pack_mininsts` of four `SMC_NOP`. -/
theorem add_op_with_delay_Inst_layout (prog : Program) (ins : Inst)
    (before_cycles after_cycles : Int) :
    ∃ (nb na : Nat) (ret : Int),
      add_op_with_delay_Inst prog ins before_cycles after_cycles
        = (prog
            ++ List.replicate nb
                (Inst.__pack_mininsts Mininst.SMC_NOP Mininst.SMC_NOP Mininst.SMC_NOP
                  Mininst.SMC_NOP)
            ++ [ins]
            ++ List.replicate na
                (Inst.__pack_mininsts Mininst.SMC_NOP Mininst.SMC_NOP Mininst.SMC_NOP
                  Mininst.SMC_NOP), ret) ∧
      (before_cycles ≤ 0 → nb = 0) ∧
      (0 < before_cycles →
        4 * ((nb : Int) - 1) < before_cycles ∧ before_cycles ≤ 4 * (nb : Int)) ∧
      (1 ≤ before_cycles → before_cycles ≤ 3 → nb = 1) ∧
      (after_cycles < 4 → na = 0) ∧
      (4 ≤ after_cycles → (na : Int) = after_cycles / 4) ∧
      ret = after_cycles - 4 * (na : Int) ∧
      ret < 4 := by
  simp only [← all_nops_eq]
  refine ⟨((before_cycles + 3) / 4).toNat, (after_cycles / 4).toNat, _,
    add_op_with_delay_Inst_closed prog ins before_cycles after_cycles,
    ?_, ?_, ?_, ?_, ?_, rfl, ?_⟩
  · intro h; omega
  · intro h; omega
  · intro h1 h3; omega
  · intro h; omega
  · intro h; omega
  · omega

/-- Witness of C17: `before_cycles = 2`, `after_cycles = 9` on the empty program: one
all-NOP bundle, the instruction, two all-NOP bundles, and 1 returned. -/
theorem add_op_with_delay_Inst_layout_witness :
    ∃ (nb na : Nat) (ret : Int),
      add_op_with_delay_Inst [] (Inst.SMC_SLEEP 5) 2 9
        = ([] ++ List.replicate nb (Inst.__pack_mininsts Mininst.SMC_NOP
                Mininst.SMC_NOP Mininst.SMC_NOP Mininst.SMC_NOP) ++ [Inst.SMC_SLEEP 5]
            ++ List.replicate na (Inst.__pack_mininsts Mininst.SMC_NOP
                Mininst.SMC_NOP Mininst.SMC_NOP Mininst.SMC_NOP), ret) ∧
      nb = 1 ∧ (na : Int) = 9 / 4 ∧ ret = 9 - 4 * (na : Int) := by
  obtain ⟨nb, na, ret, h1, _, _, h4, _, h6, h7, _⟩ :=
    add_op_with_delay_Inst_layout [] (Inst.SMC_SLEEP 5) 2 9
  exact ⟨nb, na, ret, h1, h4 (by decide) (by decide), h6 (by decide), h7⟩

/-- C18: for every pair of `int` arguments, negative `before_cycles` included, the
value of `remaining` after the first loop of the sub-bundle `add_op_with_delay` is
in 0..3, the `switch` does not reach its `default:` branch, and the call returns
without failing the assertion. -/
theorem add_op_with_delay_Mininst_no_assert (prog : Program) (ins : Mininst)
    (before_cycles after_cycles : Int) :
    0 ≤ (nop_loop prog (if before_cycles < 0 then 0 else before_cycles)).2 ∧
    (nop_loop prog (if before_cycles < 0 then 0 else before_cycles)).2 ≤ 3 ∧
    (∀ p : Program,
      place_switch p ins (nop_loop prog (if before_cycles < 0 then 0 else before_cycles)).2
        after_cycles ≠ Except.error AssertionFailure.mk) ∧
    ∃ (p : Program) (ret : Int),
      add_op_with_delay_Mininst prog ins before_cycles after_cycles = Except.ok (p, ret) := by
  have hb0 : 0 ≤ (if before_cycles < 0 then 0 else before_cycles) := by
    split <;> omega
  have hlo : 0 ≤ (nop_loop prog (if before_cycles < 0 then 0 else before_cycles)).2 := by
    rw [nop_loop_closed]
    show 0 ≤ _ - 4 * _
    omega
  have hhi : (nop_loop prog (if before_cycles < 0 then 0 else before_cycles)).2 ≤ 3 := by
    rw [nop_loop_closed]
    show _ - 4 * _ ≤ 3
    omega
  refine ⟨hlo, hhi, ?_, ?_⟩
  · intro p
    rw [place_switch_slot p ins _ after_cycles hlo hhi]
    simp
  · exact ⟨_, _, add_op_with_delay_Mininst_closed prog ins before_cycles after_cycles
      (if before_cycles < 0 then 0 else before_cycles)
      (if (if before_cycles < 0 then 0 else before_cycles) % 4 = 3 then after_cycles
        else wrap_int
          (after_cycles - (3 - (if before_cycles < 0 then 0 else before_cycles) % 4)))
      rfl rfl⟩

/-- C20: when `before_cycles` and `after_cycles` are `int` values and
`after_cycles - (3 - slot)` does not overflow (`slot` being the clamped
`before_cycles` modulo 4), 4 times the number of bundles the sub-bundle
`add_op_with_delay` appends plus the value it returns is
`max(before_cycles, 0) + after_cycles + 1`, also when the value returned is negative:
for `before_cycles = 0` and `after_cycles = 0` one bundle is appended and -3 returned. -/
theorem add_op_with_delay_Mininst_conservation (prog : Program) (ins : Mininst)
    (before_cycles after_cycles : Int)
    (hahi : after_cycles ≤ INT_MAX)
    (hno : INT_MIN ≤ after_cycles - (3 - max before_cycles 0 % 4)) :
    (∃ (appended : List Inst) (ret : Int),
      add_op_with_delay_Mininst prog ins before_cycles after_cycles
        = Except.ok (prog ++ appended, ret) ∧
      4 * (appended.length : Int) + ret = max before_cycles 0 + after_cycles + 1) ∧
    add_op_with_delay_Mininst prog ins 0 0
      = Except.ok
          (prog ++ [Inst.__pack_mininsts ins Mininst.SMC_NOP Mininst.SMC_NOP
            Mininst.SMC_NOP], -3) := by
  constructor
  · have hclamp : max before_cycles 0 = if before_cycles < 0 then 0 else before_cycles := by
      split <;> omega
    obtain ⟨r, hr⟩ : ∃ r : Int, r = if max before_cycles 0 % 4 = 3 then after_cycles
        else wrap_int (after_cycles - (3 - max before_cycles 0 % 4)) := ⟨_, rfl⟩
    have h := add_op_with_delay_Mininst_closed prog ins before_cycles after_cycles
      (max before_cycles 0) r hclamp hr
    have hb0 : 0 ≤ max before_cycles 0 := by omega
    have hwrap : (if max before_cycles 0 % 4 = 3 then after_cycles
        else wrap_int (after_cycles - (3 - max before_cycles 0 % 4)))
        = after_cycles - (3 - max before_cycles 0 % 4) := by
      by_cases h3 : max before_cycles 0 % 4 = 3
      · rw [if_pos h3, h3]
        omega
      · rw [if_neg h3]
        apply wrap_int_of_range _ hno
        unfold INT_MAX at hahi ⊢
        omega
    rw [hwrap] at hr
    refine ⟨List.replicate (max before_cycles 0 / 4).toNat all_nops
        ++ [slot_bundle ins (max before_cycles 0 % 4)]
        ++ List.replicate (r / 4).toNat all_nops, r - 4 * ((r / 4).toNat : Int), ?_, ?_⟩
    · rw [h]
      simp only [List.append_assoc]
    · simp only [List.length_append, List.length_replicate, List.length_singleton,
        List.length_cons, List.length_nil]
      push_cast
      omega
  · have h := add_op_with_delay_Mininst_closed prog ins 0 0 0 (-3) (by decide) (by decide)
    rw [h]
    simp [slot_bundle]

/-- Witness of C20: `before_cycles = -5` (clamped to 0) and `after_cycles = 6` on the
empty program: the bundles appended and the value returned add up to 7. -/
theorem add_op_with_delay_Mininst_conservation_witness :
    ∃ (appended : List Inst) (ret : Int),
      add_op_with_delay_Mininst [] (Mininst.op 7) (-5) 6 = Except.ok ([] ++ appended, ret) ∧
      4 * (appended.length : Int) + ret = max (-5) 0 + 6 + 1 :=
  (add_op_with_delay_Mininst_conservation [] (Mininst.op 7) (-5) 6
    (by decide) (by decide)).1

end Tools
